import Mathlib

/-!
# A shallow embedding of `checker.py` (PeterJCLaw/parens-checker)

The definitions below translate `src/checker.py` into Lean: tokens are plain
records, the node classes become one inductive type, the stack-based tree
builder `parse_ast` becomes explicit state passing over an `Except` monad, and
the `ValidatingVisitor` threads its mutable state explicitly, with `Option`
modelling an uncaught exception (`IndexError` / `StopIteration`).  Definitions
marked as claim-side (`claim...`) are instead written from the wording of the
specification, to be compared with the code-side definitions.
-/

namespace ParensChecker

/-- Token type codes from CPython's `token` module (as imported by
`checker.py`).  Only their distinctness matters to the checker. -/
def ENDMARKER : Nat := 0

/-- `token.NAME`. -/
def NAME : Nat := 1

/-- `token.STRING`. -/
def STRING : Nat := 3

/-- `token.NEWLINE`. -/
def NEWLINE : Nat := 4

/-- `token.INDENT`. -/
def INDENT : Nat := 5

/-- `token.DEDENT`. -/
def DEDENT : Nat := 6

/-- `token.OP`. -/
def OP : Nat := 54

/-- `token.NL`. -/
def NL : Nat := 61

/-- `tokenize.TokenInfo`, restricted to the attributes `checker.py` consumes.
The Python attribute `end` is called `stop` here (`end` is a Lean keyword);
positions are `(line, column)` pairs. -/
structure TokenInfo where
  type : Nat
  string : String
  start : Nat × Nat
  stop : Nat × Nat
deriving DecidableEq, Repr

/-- `WHITESPACE_TOKENS` (checker.py lines 26-31). -/
def WHITESPACE_TOKENS : List Nat := [NEWLINE, INDENT, DEDENT, NL]

/-- Python's `needle in haystack` on strings is substring containment (the
empty string is a substring of every string). -/
def pyInStr (needle haystack : String) : Bool :=
  haystack.data.tails.any (fun t => needle.data.isPrefixOf t)

/-- Python's `repr` of a string containing no quotes, backslashes or control
characters: the string surrounded by single quotes (`\x27`). -/
def pyRepr (s : String) : String := "\x27" ++ s ++ "\x27"

/-- `Error` (checker.py lines 48-51). -/
structure Error where
  line : Nat
  col : Nat
  message : String
deriving DecidableEq, Repr

/-- `NodeKind` (checker.py lines 54-58). -/
inductive NodeKind where
  | comma
  | open_paren
  | close_paren
  | other
deriving DecidableEq, Repr

/-- `NodeKind.from_token` (checker.py lines 60-72).  Python's `in` on strings
is substring containment, hence `pyInStr`. -/
def NodeKind.from_token (tok : TokenInfo) : NodeKind :=
  if tok.type == OP then
    if tok.string == "," then NodeKind.comma
    else if pyInStr tok.string "([\x7b" then NodeKind.open_paren
    else if pyInStr tok.string ")]\x7d" then NodeKind.close_paren
    else NodeKind.other
  else NodeKind.other

/-- The node classes of `checker.py` as one sum type: `node` is the generic
`Node(children)` (document root and the synthetic per-segment containers),
`singleTokenNode` is `SingleTokenNode`, `multiTokenNode` is `MultiTokenNode`,
and `parensGroupNode` is `ParensGroupNode` (whose `start`/`end` leaves always
wrap a single token, stored here directly; the `end` leaf is called `stop`). -/
inductive Node where
  | node (children : List Node)
  | singleTokenNode (tok : TokenInfo)
  | multiTokenNode (tokens : List TokenInfo)
  | parensGroupNode (start : TokenInfo) (children : List Node) (stop : TokenInfo)
deriving Repr

mutual

/-- The `start_pos` property (checker.py lines 82-84, 112-114, 143-145,
191-193).  `none` models the `IndexError` Python raises when the generic
`Node.start_pos` (`self.children[0].start_pos`) or `MultiTokenNode.start_pos`
(`self.tokens[0].start`) indexes an empty list. -/
def Node.start_pos : Node → Option (Nat × Nat)
  | Node.node cs => Node.startPosFirst cs
  | Node.singleTokenNode t => some t.start
  | Node.multiTokenNode ts => ts.head?.map (fun t => t.start)
  | Node.parensGroupNode s _ _ => some s.start

/-- `self.children[0].start_pos` on a possibly empty child list. -/
def Node.startPosFirst : List Node → Option (Nat × Nat)
  | [] => none
  | c :: _ => Node.start_pos c

end

mutual

/-- The `end_line` property (checker.py lines 90-92, 116-118, 147-149,
195-197): the end line of the last child / token. -/
def Node.end_line : Node → Option Nat
  | Node.node cs => Node.endLineLast cs
  | Node.singleTokenNode t => some t.stop.1
  | Node.multiTokenNode ts => ts.getLast?.map (fun t => t.stop.1)
  | Node.parensGroupNode _ _ e => some e.stop.1

/-- `self.children[-1].end_line` on a possibly empty child list. -/
def Node.endLineLast : List Node → Option Nat
  | [] => none
  | [c] => Node.end_line c
  | _ :: c :: cs => Node.endLineLast (c :: cs)

end

/-- `Node.start_line` (checker.py lines 86-88): `self.start_pos[0]`. -/
def Node.start_line (n : Node) : Option Nat := n.start_pos.map Prod.fst

/-- `Node.is_single_line` (checker.py lines 94-95). -/
def Node.is_single_line (n : Node) : Option Bool := do
  let sl ← n.start_line
  let el ← n.end_line
  pure (sl == el)

/-- `is_comma` (checker.py lines 127-128); `SingleTokenNode.kind` is
`NodeKind.from_token` of its token (line 105). -/
def is_comma : Node → Bool
  | Node.singleTokenNode t => NodeKind.from_token t == NodeKind.comma
  | _ => false

/-- `is_close_paren` (checker.py lines 131-132). -/
def is_close_paren : Node → Bool
  | Node.singleTokenNode t => NodeKind.from_token t == NodeKind.close_paren
  | _ => false

/-- The bracket-pair dict literal in `ParensGroupNode.validate_start_end`
(checker.py lines 165-169); `none` models the `KeyError` a lookup of any
other string raises. -/
def expected_end_table : String → Option String
  | "(" => some ")"
  | "\x7b" => some "\x7d"
  | "[" => some "]"
  | _ => none

/-- `ParensGroupNode.validate_start_end` (checker.py lines 163-174).  The
Python message interpolates the two bracket strings; the exact text is not
load-bearing. -/
def ParensGroupNode.validate_start_end (start stop : TokenInfo) : Except String Unit :=
  match expected_end_table start.string with
  | none => Except.error "KeyError"
  | some expected =>
      if stop.string == expected then Except.ok ()
      else Except.error "ValueError: Start and end must be the same kind of bracket"

/-- `ParensGroupNode.__init__` (checker.py lines 176-186): stores the pieces
and validates the bracket pair. -/
def ParensGroupNode.make (start : TokenInfo) (children : List Node) (stop : TokenInfo) :
    Except String Node := do
  ParensGroupNode.validate_start_end start stop
  pure (Node.parensGroupNode start children stop)

/-- `itertools.groupby(self.children, is_comma)` (checker.py line 205): the
list of `(key, group)` pairs, each group a maximal run of adjacent children
with the same `is_comma` value. -/
def groupby_is_comma : List Node → List (Bool × List Node)
  | [] => []
  | [x] => [(is_comma x, [x])]
  | x :: y :: xs =>
      let rest := groupby_is_comma (y :: xs)
      if is_comma x == is_comma y then
        match rest with
        | (k, g) :: gs => (k, x :: g) :: gs
        | [] => [(is_comma x, [x])]
      else
        (is_comma x, [x]) :: rest

/-- `ParensGroupNode.iter_comma_separated` (checker.py lines 199-209): the
opening leaf, then a generic `Node` for every non-comma chunk of the
children, then the closing leaf. -/
def ParensGroupNode.iter_comma_separated (start : TokenInfo) (children : List Node)
    (stop : TokenInfo) : List Node :=
  Node.singleTokenNode start ::
    (groupby_is_comma children).filterMap
      (fun kg => if kg.1 then none else some (Node.node kg.2))
    ++ [Node.singleTokenNode stop]

/-- `OpenParensGroup` (checker.py lines 219-225): an open-group stack frame,
holding the opening leaf's token and the accumulated children. -/
structure OpenParensGroup where
  start : TokenInfo
  children : List Node

/-- The state of `parse_ast`'s loop (checker.py lines 229-232).  The Python
`spare_nodes` variable always aliases either the top frame's `children` or
`root.children`; it is represented by `rootChildren` together with the
`children` field of each stack frame.  The head of `stack` is the top. -/
structure ParseState where
  stack : List OpenParensGroup
  rootChildren : List Node
  spare_tokens : List TokenInfo

/-- `spare_nodes.append(n)`: append to the current child list (the top
frame's children, or the root's when the stack is empty). -/
def ParseState.appendCurrent (st : ParseState) (n : Node) : ParseState :=
  match st.stack with
  | [] => { st with rootChildren := st.rootChildren ++ [n] }
  | g :: gs => { st with stack := { g with children := g.children ++ [n] } :: gs }

/-- One iteration of the `for tok in tokens` loop of `parse_ast`
(checker.py lines 234-263).  `SingleTokenNode(tok)` cannot raise in the
non-`OTHER` branches, so it is constructed directly. -/
def parse_step (st : ParseState) (tok : TokenInfo) : Except String ParseState :=
  if tok.type == ENDMARKER || WHITESPACE_TOKENS.contains tok.type then
    Except.ok st
  else
    let kind := NodeKind.from_token tok
    if kind == NodeKind.other then
      Except.ok { st with spare_tokens := st.spare_tokens ++ [tok] }
    else
      let st :=
        if st.spare_tokens.isEmpty then st
        else { st.appendCurrent (Node.multiTokenNode st.spare_tokens) with spare_tokens := [] }
      if kind == NodeKind.close_paren then
        match st.stack with
        | [] => Except.error "IndexError: pop from empty list"
        | g :: gs => do
            let node ← ParensGroupNode.make g.start g.children tok
            Except.ok (ParseState.appendCurrent { st with stack := gs } node)
      else if kind == NodeKind.open_paren then
        Except.ok { st with stack := OpenParensGroup.mk tok [] :: st.stack }
      else if kind == NodeKind.comma then
        Except.ok (st.appendCurrent (Node.singleTokenNode tok))
      else
        Except.error "AssertionError: Unexpected NodeKind"

/-- The `for tok in tokens` loop of `parse_ast`, an exception aborting it. -/
def processList : List TokenInfo → ParseState → Except String ParseState
  | [], st => Except.ok st
  | t :: ts, st => do processList ts (← parse_step st t)

/-- `parse_ast`'s initial state: empty stack, `root = Node(spare_nodes)` with
`spare_nodes = []`, empty pending buffer. -/
def initState : ParseState := ⟨[], [], []⟩

/-- `parse_ast` (checker.py lines 228-268).  Note that the final flush of the
pending buffer appends to `root.children` (line 266), and that the stack is
never examined at end of stream. -/
def parse_ast (tokens : List TokenInfo) : Except String Node := do
  let st ← processList tokens initState
  let rootChildren :=
    if st.spare_tokens.isEmpty then st.rootChildren
    else st.rootChildren ++ [Node.multiTokenNode st.spare_tokens]
  pure (Node.node rootChildren)

/-- `zip_with_prev` (checker.py lines 271-274): pairs every element with its
successor.  `next(b)` raises `StopIteration` on an empty iterable, modelled
as `none`. -/
def zip_with_prev (l : List Node) : Option (List (Node × Node)) :=
  match l with
  | [] => none
  | x :: tl => some ((x :: tl).zip tl)

/-- The element computation of the list comprehension at checker.py lines
300-303, one pair at a time: `(prev.end_line == cur.start_line, cur)`. -/
def statesOfPairs : List (Node × Node) → Option (List (Bool × Node))
  | [] => some []
  | pc :: rest => do
      let el ← pc.1.end_line
      let sl ← pc.2.start_line
      let tl ← statesOfPairs rest
      pure ((el == sl, pc.2) :: tl)

/-- The message at checker.py line 316. -/
def arg_message : String :=
  "Argument should be wrapped when containing parens are wrapped"

/-- The message at checker.py line 311. -/
def closing_message (s : String) : String := "Closing " ++ pyRepr s ++ " not wrapped"

/-- The element expression of the generator at checker.py lines 308-319: the
`Error` built for one hugging item `x` (`isinstance(x, SingleTokenNode) and
x.kind == NodeKind.CLOSE_PAREN` selects the closing-bracket message). -/
def node_error (x : Node) : Option Error := do
  let pos ← x.start_pos
  match x with
  | Node.singleTokenNode t =>
      if NodeKind.from_token t == NodeKind.close_paren then
        pure ⟨pos.1, pos.2, closing_message t.string⟩
      else
        pure ⟨pos.1, pos.2, arg_message⟩
  | _ => pure ⟨pos.1, pos.2, arg_message⟩

/-- The generator at checker.py lines 308-319, one item at a time. -/
def errorsOf : List Node → Option (List Error)
  | [] => some []
  | x :: xs => do
      let e ← node_error x
      let tl ← errorsOf xs
      pure (e :: tl)

/-- Lines 299-319 of `visitParensGroupNode` as a function of the evaluated
item sequence: build `states` from consecutive pairs, and emit the
diagnostics (`self.errors.extend(...)`) exactly when `same_line_starts` is
non-empty and shorter than `states`. -/
def vpgeItems (items : List Node) : Option (List Error) := do
  let pairs ← zip_with_prev items
  let states ← statesOfPairs pairs
  let same_line_starts := (states.filter (fun p => p.1)).map (fun p => p.2)
  if !same_line_starts.isEmpty && same_line_starts.length < states.length then
    errorsOf same_line_starts
  else
    pure []

/-- Lines 299-319 of `visitParensGroupNode`: the diagnostics this group
itself contributes (before recursing into children), evaluated over
`iter_comma_separated`. -/
def visitParensGroupNode_errors (start : TokenInfo) (children : List Node)
    (stop : TokenInfo) : Option (List Error) :=
  vpgeItems (ParensGroupNode.iter_comma_separated start children stop)

/-- `ValidatingVisitor`'s mutable state (checker.py lines 277-280).  The
`_in_multiline_parens_group` flag is set in `__init__` and never read or
written afterwards. -/
structure ValidatingVisitor where
  errors : List Error
  in_multiline_parens_group : Bool
deriving DecidableEq, Repr

mutual

/-- `Node.visit` dispatch together with the four visitor methods
(checker.py lines 79-80, 109-110, 140-141, 188-189, 282-321), the visitor
state threaded explicitly; `none` models an uncaught exception during
evaluation.  `visitParensGroupNode` returns without recursing when the group
is single-line or childless (lines 296-297); otherwise it extends `errors`
and then visits the children (line 321). -/
def visit (v : ValidatingVisitor) : Node → Option ValidatingVisitor
  | Node.node cs => visitChildren v cs
  | Node.singleTokenNode _ => some v
  | Node.multiTokenNode _ => some v
  | Node.parensGroupNode s cs e =>
      if s.start.1 == e.stop.1 || cs.isEmpty then some v
      else do
        let new ← visitParensGroupNode_errors s cs e
        visitChildren { v with errors := v.errors ++ new } cs

/-- `ValidatingVisitor.visitChildren` (checker.py lines 282-284). -/
def visitChildren (v : ValidatingVisitor) : List Node → Option ValidatingVisitor
  | [] => some v
  | c :: cs => do visitChildren (← visit v c) cs

end

/-- `validate` (checker.py lines 324-327): run a fresh visitor over the tree
and return its accumulated errors. -/
def validate (node : Node) : Option (List Error) :=
  (visit ⟨[], false⟩ node).map (fun v => v.errors)

/-- `process` (checker.py lines 330-331): `validate(parse_ast(tokens))`; an
exception from either stage propagates to the caller. -/
def process (tokens : List TokenInfo) : Except String (List Error) := do
  let root ← parse_ast tokens
  match validate root with
  | some errors => Except.ok errors
  | none => Except.error "IndexError"

/-!
## Claim-side definitions

These are written from the wording of the specification's claims, not from
the code, and are compared with the code-side definitions above.
-/

/-- Claim C7's segmentation, written from the claim's words: split the child
sequence on every comma leaf (commas are consumed as separators and belong to
no segment); each maximal run of consecutive non-comma children becomes
exactly one segment, so no empty segment ever arises (in particular a
trailing comma yields no empty final segment). -/
def claimSegments : List Node → List (List Node)
  | [] => []
  | x :: xs =>
      if is_comma x then claimSegments xs
      else
        match xs with
        | [] => [[x]]
        | y :: ys =>
            if is_comma y then [x] :: claimSegments (y :: ys)
            else
              match claimSegments (y :: ys) with
              | seg :: segs => (x :: seg) :: segs
              | [] => [[x]]

/-- Claim C1's ordered item sequence
`[opening leaf, segment_1, ..., segment_k, closing leaf]`, each item tagged
with whether it is the closing-bracket leaf. -/
def claimItems (start : TokenInfo) (children : List Node) (stop : TokenInfo) :
    List (Bool × Node) :=
  (false, Node.singleTokenNode start) ::
    (claimSegments children).map (fun seg => (false, Node.node seg))
    ++ [(true, Node.singleTokenNode stop)]

/-- Claim C1's per-pair test, item by item: does the second item's first
token start on the physical line where the first item's last token ends? -/
def claimPairStates : List ((Bool × Node) × (Bool × Node)) → Option (List (Bool × (Bool × Node)))
  | [] => some []
  | pc :: rest => do
      let el ← pc.1.2.end_line
      let sl ← pc.2.2.start_line
      let tl ← claimPairStates rest
      pure ((el == sl, pc.2) :: tl)

/-- Claim C1's diagnostic for one hugging item: at the item's start position,
with message `Closing <bracket-char> not wrapped` when the item is the
closing-bracket leaf and the argument message otherwise. -/
def claimError (stop : TokenInfo) (item : Bool × Node) : Option Error := do
  let pos ← item.2.start_pos
  pure (if item.1 then ⟨pos.1, pos.2, closing_message stop.string⟩
        else ⟨pos.1, pos.2, arg_message⟩)

/-- One diagnostic per hugging item, in order. -/
def claimErrors (stop : TokenInfo) : List (Bool × Node) → Option (List Error)
  | [] => some []
  | i :: is => do
      let e ← claimError stop i
      let tl ← claimErrors stop is
      pure (e :: tl)

/-- Claim C1's per-group rule: with `hugging` the items (other than the
leading opening leaf) that start on the line where the previous item ends,
emit one diagnostic per hugging item exactly when `hugging` is non-empty and
a strict subset of the evaluated items. -/
def claimDiagnostics (start : TokenInfo) (children : List Node) (stop : TokenInfo) :
    Option (List Error) := do
  let items := claimItems start children stop
  let states ← claimPairStates (items.zip items.tail)
  let hugging := (states.filter (fun p => p.1)).map (fun p => p.2)
  if 0 < hugging.length ∧ hugging.length < states.length then
    claimErrors stop hugging
  else
    pure []

mutual

/-- Claim C6's reading of the evaluator: the same per-group rule as `visit`,
but recursing into every child also for groups skipped as single-line or
childless. -/
def claimVisitAll (v : ValidatingVisitor) : Node → Option ValidatingVisitor
  | Node.node cs => claimVisitAllChildren v cs
  | Node.singleTokenNode _ => some v
  | Node.multiTokenNode _ => some v
  | Node.parensGroupNode s cs e =>
      if s.start.1 == e.stop.1 || cs.isEmpty then claimVisitAllChildren v cs
      else do
        let new ← visitParensGroupNode_errors s cs e
        claimVisitAllChildren { v with errors := v.errors ++ new } cs

/-- Children traversal for `claimVisitAll`. -/
def claimVisitAllChildren (v : ValidatingVisitor) : List Node → Option ValidatingVisitor
  | [] => some v
  | c :: cs => do claimVisitAllChildren (← claimVisitAll v c) cs

end

/-- Claim C6's reading of `validate`: visits every group of the tree. -/
def claimValidate (node : Node) : Option (List Error) :=
  (claimVisitAll ⟨[], false⟩ node).map (fun v => v.errors)

mutual

/-- The structurally significant leaves of a tree — the tokens wrapped by
single-token leaf nodes — in left-to-right tree order (claim C4's measuring
stick). -/
def Node.leafTokens : Node → List TokenInfo
  | Node.node cs => Node.leafTokensList cs
  | Node.singleTokenNode t => [t]
  | Node.multiTokenNode _ => []
  | Node.parensGroupNode s cs e => s :: Node.leafTokensList cs ++ [e]

/-- `Node.leafTokens` over a list of children. -/
def Node.leafTokensList : List Node → List TokenInfo
  | [] => []
  | c :: cs => Node.leafTokens c ++ Node.leafTokensList cs

end

/-- The subsequence of Comma/OpenBracket/CloseBracket tokens of the input,
in original order (claim C4). -/
def sigTokens (tokens : List TokenInfo) : List TokenInfo :=
  tokens.filter (fun t => !(NodeKind.from_token t == NodeKind.other))

/-- Balanced-bracket token sequences (claim C4): brackets are properly
nested, every closer's character matching its opener's per the bracket
table; all other tokens are structurally flat. -/
inductive Balanced : List TokenInfo → Prop where
  | nil : Balanced []
  | flat (t : TokenInfo) (ts : List TokenInfo) :
      NodeKind.from_token t ≠ NodeKind.open_paren →
      NodeKind.from_token t ≠ NodeKind.close_paren →
      Balanced ts → Balanced (t :: ts)
  | group (o c : TokenInfo) (inner rest : List TokenInfo) :
      NodeKind.from_token o = NodeKind.open_paren →
      NodeKind.from_token c = NodeKind.close_paren →
      expected_end_table o.string = some c.string →
      Balanced inner → Balanced rest →
      Balanced (o :: (inner ++ c :: rest))

/-- Does a node carry a position: `start_pos` and `end_line` both defined. -/
def posOk (n : Node) : Bool := n.start_pos.isSome && n.end_line.isSome

mutual

/-- Well-formedness every tree built by `parse_ast` enjoys: every Run node is
non-empty and every child (at any level) carries a position. -/
def wfNode : Node → Bool
  | Node.node cs => wfList cs
  | Node.singleTokenNode _ => true
  | Node.multiTokenNode ts => !ts.isEmpty
  | Node.parensGroupNode _ cs _ => wfList cs

/-- `wfNode` together with `posOk` for every element of a child list. -/
def wfList : List Node → Bool
  | [] => true
  | c :: cs => wfNode c && posOk c && wfList cs

end

/-- The invariant `parse_ast`'s loop maintains: the root's children and every
stack frame's children are well-formed. -/
def StInv (st : ParseState) : Prop :=
  wfList st.rootChildren = true ∧ ∀ g ∈ st.stack, wfList g.children = true

/-- The effect of a balanced stretch of input on the parser state: the
current child list (top frame's children, or the root's) grows by `ns`, and
the pending buffer is replaced by `sp`. -/
def ParseState.extendCurrent (st : ParseState) (ns : List Node) (sp : List TokenInfo) :
    ParseState :=
  match st.stack with
  | [] => ⟨[], st.rootChildren ++ ns, sp⟩
  | g :: gs => ⟨⟨g.start, g.children ++ ns⟩ :: gs, st.rootChildren, sp⟩

/-- The Run node (possibly none) the flush at checker.py lines 244-246
appends to the current child list. -/
def flushNodes (st : ParseState) : List Node :=
  if st.spare_tokens.isEmpty then [] else [Node.multiTokenNode st.spare_tokens]

/-- The top-level observables of a child node, as far as the enclosing
group's rule is concerned: whether it is a comma leaf, its start position
and its end line. -/
def nodeObs (n : Node) : Bool × Option (Nat × Nat) × Option Nat :=
  (is_comma n, n.start_pos, n.end_line)

/-- The observables of an evaluated item the per-group rule depends on: its
start position, its end line, and the diagnostic it would yield. -/
def itemObs (n : Node) : Option (Nat × Nat) × Option Nat × Option Error :=
  (n.start_pos, n.end_line, node_error n)

/-!
## Concrete inputs used by witnesses and counterexamples
-/

/-- Build a token from type, text and positions. -/
def mkTok (ty : Nat) (s : String) (a b c d : Nat) : TokenInfo := ⟨ty, s, (a, b), (c, d)⟩

/-- A lone opening bracket: a missing-closer input. -/
def c2open : TokenInfo := mkTok OP "(" 1 0 1 1

/-- An `Other` token on line 1. -/
def c3x : TokenInfo := mkTok NAME "x" 1 0 1 1

/-- A line-end marker (`token.NL`). -/
def c3nl : TokenInfo := mkTok NL "" 1 1 1 2

/-- An `Other` token on line 2. -/
def c3y : TokenInfo := mkTok NAME "y" 2 0 2 1

/-- A token stream with a line-end marker between two `Other` tokens. -/
def c3tokens : List TokenInfo := [c3x, c3nl, c3y]

/-- Tokens of a single-line outer group enclosing a multi-line inner group
whose first segment hugs its opener; positions as the external tokenizer
reports them (the input contract places no monotonicity requirement on
them). -/
def c6tokens : List TokenInfo :=
  [ mkTok OP "(" 1 0 1 1
  , mkTok OP "[" 5 0 5 1
  , mkTok NAME "x" 5 1 5 2
  , mkTok OP "," 5 2 5 3
  , mkTok NAME "y" 6 0 6 1
  , mkTok OP "]" 7 0 7 1
  , mkTok OP ")" 1 2 1 3
  ]

/-- The tree `parse_ast` builds from `c6tokens`. -/
def c6tree : Node :=
  Node.node
    [ Node.parensGroupNode (mkTok OP "(" 1 0 1 1)
        [ Node.parensGroupNode (mkTok OP "[" 5 0 5 1)
            [ Node.multiTokenNode [mkTok NAME "x" 5 1 5 2]
            , Node.singleTokenNode (mkTok OP "," 5 2 5 3)
            , Node.multiTokenNode [mkTok NAME "y" 6 0 6 1]
            ]
            (mkTok OP "]" 7 0 7 1)
        ]
        (mkTok OP ")" 1 2 1 3)
    ]

/-- A lone closing bracket: an extra-closer input. -/
def c8tok : TokenInfo := mkTok OP ")" 1 0 1 1

/-- Tokens of `foo(a, b)` on one line (a balanced sequence). -/
def c4tokens : List TokenInfo :=
  [ mkTok NAME "foo" 1 0 1 3
  , mkTok OP "(" 1 3 1 4
  , mkTok NAME "a" 1 4 1 5
  , mkTok OP "," 1 5 1 6
  , mkTok NAME "b" 1 7 1 8
  , mkTok OP ")" 1 8 1 9
  ]

/-- The opening parenthesis of the `foo("abc",` example at checker.py's test
`test_wrapped_call_argument_not_wrapped`. -/
def c1open : TokenInfo := mkTok OP "(" 1 3 1 4

/-- The string argument of that example. -/
def c1str : TokenInfo := mkTok STRING "s" 1 4 1 9

/-- The trailing comma of that example. -/
def c1comma : TokenInfo := mkTok OP "," 1 9 1 10

/-- The closing parenthesis of that example, on the next line. -/
def c1close : TokenInfo := mkTok OP ")" 2 0 2 1

/-- The children of the group of that example. -/
def c1children : List Node :=
  [Node.multiTokenNode [c1str], Node.singleTokenNode c1comma]

/-- A closing parenthesis on the same line as `c1open`. -/
def c5close : TokenInfo := mkTok OP ")" 1 20 1 21

/-- `c1children` with the Run swapped for a bracket group occupying the same
span but with entirely different contents (on line 9): the same top-level
observables. -/
def c6alt : List Node :=
  [ Node.parensGroupNode (mkTok OP "(" 1 4 1 5)
      [Node.multiTokenNode [mkTok NAME "z" 9 0 9 5]]
      (mkTok OP ")" 1 8 1 9)
  , Node.singleTokenNode c1comma
  ]

end ParensChecker

namespace ParensChecker

/-!
## Helper lemmas about the parser state
-/

theorem extendCurrent_nil (st : ParseState) : st.extendCurrent [] st.spare_tokens = st := by
  obtain ⟨stk, rc, sp⟩ := st
  cases stk with
  | nil => simp [ParseState.extendCurrent]
  | cons g gs => simp [ParseState.extendCurrent]

theorem extendCurrent_spare (stk : List OpenParensGroup) (rc : List Node)
    (spx spy : List TokenInfo) (ns : List Node) (sp : List TokenInfo) :
    ParseState.extendCurrent ⟨stk, rc, spx⟩ ns sp = ParseState.extendCurrent ⟨stk, rc, spy⟩ ns sp := by
  cases stk <;> rfl

theorem appendCurrent_eq (st : ParseState) (n : Node) :
    st.appendCurrent n = st.extendCurrent [n] st.spare_tokens := by
  obtain ⟨stk, rc, sp⟩ := st
  cases stk with
  | nil => simp [ParseState.appendCurrent, ParseState.extendCurrent]
  | cons g gs => simp [ParseState.appendCurrent, ParseState.extendCurrent]

theorem extend_extend (st : ParseState) (ns ms : List Node) (sp sp2 : List TokenInfo) :
    (st.extendCurrent ns sp).extendCurrent ms sp2 = st.extendCurrent (ns ++ ms) sp2 := by
  obtain ⟨stk, rc, spx⟩ := st
  cases stk with
  | nil => simp [ParseState.extendCurrent]
  | cons g gs => simp [ParseState.extendCurrent]

theorem extendCurrent_spareTokens (st : ParseState) (ns : List Node) (sp : List TokenInfo) :
    (st.extendCurrent ns sp).spare_tokens = sp := by
  obtain ⟨stk, rc, spx⟩ := st
  cases stk <;> rfl

/-- The flush at checker.py lines 244-246, written as `extendCurrent`. -/
theorem flush_eq (st : ParseState) :
    (if st.spare_tokens.isEmpty then st
     else { st.appendCurrent (Node.multiTokenNode st.spare_tokens) with spare_tokens := [] })
      = st.extendCurrent (flushNodes st) [] := by
  obtain ⟨stk, rc, sp⟩ := st
  by_cases hsp : sp.isEmpty = true
  · have hnil : sp = [] := by simpa using hsp
    subst hnil
    cases stk with
    | nil => simp [ParseState.extendCurrent, flushNodes]
    | cons g gs => simp [ParseState.extendCurrent, flushNodes]
  · rw [Bool.not_eq_true] at hsp
    cases stk with
    | nil =>
        simp [hsp, ParseState.extendCurrent, flushNodes, ParseState.appendCurrent]
    | cons g gs =>
        simp [hsp, ParseState.extendCurrent, flushNodes, ParseState.appendCurrent]

/-!
## Case equations for `parse_step`
-/

theorem parse_step_skip (st : ParseState) (tok : TokenInfo)
    (h : (tok.type == ENDMARKER || WHITESPACE_TOKENS.contains tok.type) = true) :
    parse_step st tok = Except.ok st := by
  unfold parse_step
  rw [h]
  rfl

theorem parse_step_other (st : ParseState) (tok : TokenInfo)
    (hg : (tok.type == ENDMARKER || WHITESPACE_TOKENS.contains tok.type) = false)
    (hk : NodeKind.from_token tok = NodeKind.other) :
    parse_step st tok = Except.ok { st with spare_tokens := st.spare_tokens ++ [tok] } := by
  unfold parse_step
  rw [hg, hk]
  rfl

theorem parse_step_comma (st : ParseState) (tok : TokenInfo)
    (hg : (tok.type == ENDMARKER || WHITESPACE_TOKENS.contains tok.type) = false)
    (hk : NodeKind.from_token tok = NodeKind.comma) :
    parse_step st tok =
      Except.ok ((st.extendCurrent (flushNodes st) []).appendCurrent (Node.singleTokenNode tok)) := by
  have h1 : parse_step st tok =
      Except.ok ((if st.spare_tokens.isEmpty then st
        else { st.appendCurrent (Node.multiTokenNode st.spare_tokens) with
                 spare_tokens := [] }).appendCurrent (Node.singleTokenNode tok)) := by
    unfold parse_step
    rw [hg, hk]
    rfl
  rw [flush_eq] at h1
  exact h1

theorem parse_step_open (st : ParseState) (tok : TokenInfo)
    (hg : (tok.type == ENDMARKER || WHITESPACE_TOKENS.contains tok.type) = false)
    (hk : NodeKind.from_token tok = NodeKind.open_paren) :
    parse_step st tok =
      Except.ok { st.extendCurrent (flushNodes st) [] with
                    stack := OpenParensGroup.mk tok [] :: (st.extendCurrent (flushNodes st) []).stack } := by
  have h1 : parse_step st tok =
      Except.ok { (if st.spare_tokens.isEmpty then st
        else { st.appendCurrent (Node.multiTokenNode st.spare_tokens) with
                 spare_tokens := [] }) with
          stack := OpenParensGroup.mk tok [] ::
            (if st.spare_tokens.isEmpty then st
             else { st.appendCurrent (Node.multiTokenNode st.spare_tokens) with
                      spare_tokens := [] }).stack } := by
    unfold parse_step
    rw [hg, hk]
    rfl
  rw [flush_eq] at h1
  exact h1

theorem parse_step_close (st : ParseState) (tok : TokenInfo)
    (hg : (tok.type == ENDMARKER || WHITESPACE_TOKENS.contains tok.type) = false)
    (hk : NodeKind.from_token tok = NodeKind.close_paren) :
    parse_step st tok =
      (match (st.extendCurrent (flushNodes st) []).stack with
       | [] => Except.error "IndexError: pop from empty list"
       | g :: gs => do
           let node ← ParensGroupNode.make g.start g.children tok
           Except.ok (ParseState.appendCurrent
             { st.extendCurrent (flushNodes st) [] with stack := gs } node)) := by
  have h1 : parse_step st tok =
      (match (if st.spare_tokens.isEmpty then st
          else { st.appendCurrent (Node.multiTokenNode st.spare_tokens) with
                   spare_tokens := [] }).stack with
       | [] => Except.error "IndexError: pop from empty list"
       | g :: gs => do
           let node ← ParensGroupNode.make g.start g.children tok
           Except.ok (ParseState.appendCurrent
             { (if st.spare_tokens.isEmpty then st
                else { st.appendCurrent (Node.multiTokenNode st.spare_tokens) with
                         spare_tokens := [] }) with stack := gs } node)) := by
    unfold parse_step
    rw [hg, hk]
    rfl
  rw [flush_eq] at h1
  exact h1

/-!
## `processList` lemmas
-/

theorem processList_cons (t : TokenInfo) (ts : List TokenInfo) (st : ParseState) :
    processList (t :: ts) st = (parse_step st t).bind (fun st2 => processList ts st2) := by
  cases h : parse_step st t with
  | error msg =>
      simp only [processList]
      rw [h]
      rfl
  | ok st2 =>
      simp only [processList]
      rw [h]
      rfl

theorem processList_append (l1 l2 : List TokenInfo) (st : ParseState) :
    processList (l1 ++ l2) st =
      (processList l1 st).bind (fun st2 => processList l2 st2) := by
  induction l1 generalizing st with
  | nil => rfl
  | cons t ts ih =>
      rw [List.cons_append, processList_cons, processList_cons]
      cases h : parse_step st t with
      | error msg => rfl
      | ok st2 => exact ih st2

/-!
## Claim C5: single-line or childless groups yield no diagnostic
-/

/-- C5: a Group whose opening and closing leaves are on the same source line,
or which has no children at all, contributes no diagnostic (the evaluator
returns its state unchanged on such a group, whatever its contents). -/
theorem single_line_or_empty_group_no_diagnostic
    (v : ValidatingVisitor) (s : TokenInfo) (cs : List Node) (e : TokenInfo)
    (h : s.start.1 = e.stop.1 ∨ cs = []) :
    visit v (Node.parensGroupNode s cs e) = some v := by
  have hg : (s.start.1 == e.stop.1 || cs.isEmpty) = true := by
    rcases h with h | h
    · simp [h]
    · subst h; simp
  simp [visit, hg]

/-- Witness for C5 at a concrete single-line group. -/
theorem single_line_or_empty_group_no_diagnostic_witness :
    visit ⟨[], false⟩ (Node.parensGroupNode c1open c1children c5close) = some ⟨[], false⟩ :=
  single_line_or_empty_group_no_diagnostic ⟨[], false⟩ c1open c1children c5close (Or.inl rfl)

/-!
## Claim C2: missing closer — the builder does NOT fail
-/

/-- C2 counterexample: on a lone opening bracket the loop ends with a frame
still on the stack, yet `parse_ast` returns normally with a partial (empty)
root — the stack is never checked at end of stream. -/
theorem missing_closer_silently_ok :
    processList [c2open] initState = Except.ok ⟨[⟨c2open, []⟩], [], []⟩ ∧
    parse_ast [c2open] = Except.ok (Node.node []) :=
  ⟨rfl, rfl⟩

/-- C2 (amended): if the token stream ends while bracket groups are still
open, `build` does not fail; it silently returns the root assembled so far
(the pending buffer flushed onto the root), discarding the open frames. -/
theorem missing_closer_returns_partial_root (tokens : List TokenInfo) (st : ParseState)
    (h1 : processList tokens initState = Except.ok st) (h2 : st.stack ≠ []) :
    parse_ast tokens = Except.ok (Node.node
      (if st.spare_tokens.isEmpty then st.rootChildren
       else st.rootChildren ++ [Node.multiTokenNode st.spare_tokens])) := by
  simp [parse_ast, h1, Except.bind]

/-- Witness for the amended C2 on the lone-opener input. -/
theorem missing_closer_returns_partial_root_witness :
    parse_ast [c2open] = Except.ok (Node.node []) :=
  missing_closer_returns_partial_root [c2open] ⟨[⟨c2open, []⟩], [], []⟩ rfl
    (by simp)

/-!
## Claim C3: line-end markers are skipped, not kept
-/

/-- C3 counterexample: a `token.NL` line-end marker is skipped by the
builder's loop (state unchanged, nothing appended to the pending buffer),
and the Run built around it omits it entirely. -/
theorem line_end_marker_skipped_cx :
    parse_step initState c3nl = Except.ok initState ∧
    initState.spare_tokens = [] ∧
    parse_ast c3tokens = Except.ok (Node.node [Node.multiTokenNode [c3x, c3y]]) :=
  ⟨rfl, rfl, rfl⟩

/-- C3 (amended): the builder skips end-of-stream markers and every member of
`WHITESPACE_TOKENS` — `NEWLINE`, `INDENT`, `DEDENT` and `NL` alike; such
tokens never reach the pending buffer and never appear in a Run. -/
theorem line_end_markers_skipped (st : ParseState) (tok : TokenInfo)
    (h : tok.type = ENDMARKER ∨ tok.type ∈ WHITESPACE_TOKENS) :
    parse_step st tok = Except.ok st := by
  apply parse_step_skip
  rcases h with h | h
  · simp [h]
  · have hc : WHITESPACE_TOKENS.contains tok.type = true := List.elem_eq_true_of_mem h
    rw [hc, Bool.or_true]

/-- Witness for the amended C3 on a concrete `NL` token. -/
theorem line_end_markers_skipped_witness :
    parse_step initState c3nl = Except.ok initState :=
  line_end_markers_skipped initState c3nl (Or.inr (by decide))

/-!
## The visitor accumulates: running from any state appends to its errors
-/

mutual

theorem visit_accumulate : ∀ (v : ValidatingVisitor) (n : Node),
    visit v n = (visit ⟨[], v.in_multiline_parens_group⟩ n).map
      (fun w => ⟨v.errors ++ w.errors, w.in_multiline_parens_group⟩)
  | v, Node.node cs => visitChildren_accumulate v cs
  | v, Node.singleTokenNode t => by
      have h1 : visit v (Node.singleTokenNode t) = some v := rfl
      have h2 : visit ⟨[], v.in_multiline_parens_group⟩ (Node.singleTokenNode t)
          = some ⟨[], v.in_multiline_parens_group⟩ := rfl
      rw [h1, h2]
      obtain ⟨errs, b⟩ := v
      simp
  | v, Node.multiTokenNode ts => by
      have h1 : visit v (Node.multiTokenNode ts) = some v := rfl
      have h2 : visit ⟨[], v.in_multiline_parens_group⟩ (Node.multiTokenNode ts)
          = some ⟨[], v.in_multiline_parens_group⟩ := rfl
      rw [h1, h2]
      obtain ⟨errs, b⟩ := v
      simp
  | v, Node.parensGroupNode s cs e => by
      by_cases hg : (s.start.1 == e.stop.1 || cs.isEmpty) = true
      · simp [visit, hg]
      · rw [Bool.not_eq_true] at hg
        simp only [visit, hg, Bool.false_eq_true, if_false]
        cases hE : visitParensGroupNode_errors s cs e with
        | none => simp
        | some new =>
            show visitChildren ⟨v.errors ++ new, v.in_multiline_parens_group⟩ cs
                = Option.map
                    (fun w => ⟨v.errors ++ w.errors, w.in_multiline_parens_group⟩)
                    (visitChildren ⟨[] ++ new, v.in_multiline_parens_group⟩ cs)
            rw [visitChildren_accumulate ⟨v.errors ++ new, v.in_multiline_parens_group⟩ cs,
              visitChildren_accumulate ⟨[] ++ new, v.in_multiline_parens_group⟩ cs]
            cases visitChildren ⟨[], v.in_multiline_parens_group⟩ cs with
            | none => simp
            | some u => simp [List.append_assoc]

theorem visitChildren_accumulate : ∀ (v : ValidatingVisitor) (cs : List Node),
    visitChildren v cs = (visitChildren ⟨[], v.in_multiline_parens_group⟩ cs).map
      (fun w => ⟨v.errors ++ w.errors, w.in_multiline_parens_group⟩)
  | v, [] => by simp [visitChildren]
  | v, c :: cs => by
      simp only [visitChildren]
      rw [visit_accumulate v c]
      cases hv : visit ⟨[], v.in_multiline_parens_group⟩ c with
      | none => simp
      | some w =>
          show visitChildren ⟨v.errors ++ w.errors, w.in_multiline_parens_group⟩ cs
              = Option.map
                  (fun u => ⟨v.errors ++ u.errors, u.in_multiline_parens_group⟩)
                  (visitChildren w cs)
          rw [visitChildren_accumulate ⟨v.errors ++ w.errors, w.in_multiline_parens_group⟩ cs,
            visitChildren_accumulate w cs]
          cases visitChildren ⟨[], w.in_multiline_parens_group⟩ cs with
          | none => simp
          | some u => simp [List.append_assoc]

end

/-!
## Claim C9: evaluation is deterministic and mutation-free
-/

/-- C9: `validate` is a pure function of the (immutable) tree: running it
twice gives identical lists, and the only way visitor state enters the result
is as a prefix of the error list (`visit_accumulate` restated), so no hidden
mutation survives a run. -/
theorem validate_idempotent :
    (∀ node : Node, validate node = validate node) ∧
    (∀ (v : ValidatingVisitor) (node : Node),
      visit v node = (visit ⟨[], v.in_multiline_parens_group⟩ node).map
        (fun w => ⟨v.errors ++ w.errors, w.in_multiline_parens_group⟩)) :=
  ⟨fun _ => rfl, fun v n => visit_accumulate v n⟩

/-!
## Claim C6 counterexample: a skipped group is not recursed into
-/

/-- C6 counterexample: on `c6tokens` (well-typed per the input contract,
whose positions carry no monotonicity guarantee) the built tree has a
single-line outer group containing a multi-line inner group with a hugging
segment.  `validate` returns no diagnostics because the skipped outer group
is never recursed into, while the always-recursing reading of the claim
(`claimValidate`) reports the inner group's diagnostic. -/
theorem skipped_group_children_not_visited :
    parse_ast c6tokens = Except.ok c6tree ∧
    validate c6tree = some [] ∧
    claimValidate c6tree = some [⟨5, 1, arg_message⟩] ∧
    validate c6tree ≠ claimValidate c6tree := by
  refine ⟨rfl, rfl, rfl, ?_⟩
  decide

/-!
## Claim C7: comma segmentation
-/

theorem gb_head (y : Node) (xs : List Node) : ∃ run gs,
    groupby_is_comma (y :: xs) = (is_comma y, y :: run) :: gs := by
  induction xs generalizing y with
  | nil => exact ⟨[], [], rfl⟩
  | cons z zs ih =>
      obtain ⟨run, gs, h⟩ := ih z
      by_cases hk : (is_comma y == is_comma z) = true
      · have hkey : is_comma y = is_comma z := by simpa using hk
        refine ⟨z :: run, gs, ?_⟩
        simp only [groupby_is_comma]
        rw [h, if_pos hk, hkey]
      · rw [Bool.not_eq_true] at hk
        refine ⟨[], groupby_is_comma (z :: zs), ?_⟩
        simp only [groupby_is_comma]
        rw [if_neg (by simp [hk])]

theorem segments_eq (cs : List Node) :
    (groupby_is_comma cs).filterMap
        (fun kg => if kg.1 then none else some (Node.node kg.2))
      = (claimSegments cs).map Node.node := by
  induction cs with
  | nil => rfl
  | cons x xs ih =>
      cases xs with
      | nil =>
          by_cases hx : is_comma x = true
          · simp [groupby_is_comma, claimSegments, hx]
          · rw [Bool.not_eq_true] at hx
            simp [groupby_is_comma, claimSegments, hx]
      | cons y ys =>
          obtain ⟨run, gs, hgb⟩ := gb_head y ys
          by_cases hx : is_comma x = true <;> by_cases hy : is_comma y = true
          · -- both commas: groups merge and both are dropped
            have hgbx : groupby_is_comma (x :: y :: ys) = (is_comma y, x :: y :: run) :: gs := by
              simp only [groupby_is_comma]
              rw [hgb, if_pos (by rw [hx, hy]; rfl)]
            rw [hgb] at ih
            rw [hgbx]
            simp only [List.filterMap_cons, hy, if_pos, hx] at ih ⊢
            rw [ih]
            simp [claimSegments, hx]
          · -- comma then non-comma: a fresh singleton comma group, dropped
            have hgbx : groupby_is_comma (x :: y :: ys) =
                (is_comma x, [x]) :: groupby_is_comma (y :: ys) := by
              simp only [groupby_is_comma]
              rw [if_neg (by simp [hx, hy, Bool.not_eq_true] )]
            rw [hgbx]
            simp only [List.filterMap_cons, hx, if_pos]
            rw [ih]
            simp [claimSegments, hx]
          · -- non-comma then comma: a fresh singleton kept group
            have hgbx : groupby_is_comma (x :: y :: ys) =
                (is_comma x, [x]) :: groupby_is_comma (y :: ys) := by
              simp only [groupby_is_comma]
              rw [if_neg (by simp [hx, hy, Bool.not_eq_true] )]
            rw [Bool.not_eq_true] at hx
            rw [hgbx]
            simp only [List.filterMap_cons, hx, Bool.false_eq_true, if_false]
            rw [ih]
            simp [claimSegments, hx, hy]
          · -- two adjacent non-commas merge into one segment
            rw [Bool.not_eq_true] at hx hy
            have hgbx : groupby_is_comma (x :: y :: ys) = (is_comma y, x :: y :: run) :: gs := by
              simp only [groupby_is_comma]
              rw [hgb, if_pos (by rw [hx, hy]; rfl)]
            rw [hgb] at ih
            simp only [List.filterMap_cons, hy, Bool.false_eq_true, if_false] at ih
            cases hcs : claimSegments (y :: ys) with
            | nil => rw [hcs] at ih; simp at ih
            | cons seg segs =>
                rw [hcs] at ih
                simp only [List.map_cons, List.cons.injEq, Node.node.injEq] at ih
                obtain ⟨hseg, hrest⟩ := ih
                rw [hgbx]
                simp only [List.filterMap_cons, hy, Bool.false_eq_true, if_false]
                have hclaim : claimSegments (x :: y :: ys) = (x :: seg) :: segs := by
                  rw [claimSegments]
                  simp [hx, hy, hcs]
                rw [hclaim]
                simp [hseg, hrest]

theorem extendCurrent_stack_nil (st : ParseState) (ns : List Node) (sp : List TokenInfo)
    (h : st.stack = []) : (st.extendCurrent ns sp).stack = [] := by
  obtain ⟨stk, rc, spx⟩ := st
  simp only at h
  subst h
  rfl

theorem extendCurrent_stack_cons (st : ParseState) (ns : List Node) (sp : List TokenInfo)
    (g : OpenParensGroup) (gs : List OpenParensGroup) (h : st.stack = g :: gs) :
    (st.extendCurrent ns sp).stack = ⟨g.start, g.children ++ ns⟩ :: gs := by
  obtain ⟨stk, rc, spx⟩ := st
  simp only at h
  subst h
  rfl

theorem parse_ast_of_processList_error (tokens : List TokenInfo) (msg : String)
    (h : processList tokens initState = Except.error msg) :
    parse_ast tokens = Except.error msg := by
  unfold parse_ast
  rw [h]
  rfl

theorem process_of_parse_ast_error (tokens : List TokenInfo) (msg : String)
    (h : parse_ast tokens = Except.error msg) :
    process tokens = Except.error msg := by
  unfold process
  rw [h]
  rfl

theorem make_keyerror (start : TokenInfo) (children : List Node) (stop : TokenInfo)
    (h : expected_end_table start.string = none) :
    ParensGroupNode.make start children stop = Except.error "KeyError" := by
  unfold ParensGroupNode.make ParensGroupNode.validate_start_end
  rw [h]
  rfl

theorem make_mismatch (start : TokenInfo) (children : List Node) (stop : TokenInfo)
    (exp : String) (h1 : expected_end_table start.string = some exp)
    (h2 : (stop.string == exp) = false) :
    ParensGroupNode.make start children stop =
      Except.error "ValueError: Start and end must be the same kind of bracket" := by
  unfold ParensGroupNode.make ParensGroupNode.validate_start_end
  rw [h1]
  simp [h2]

/-!
## Claim C8: extra closer or mismatched pair is a structural failure
-/

/-- C8: when a closing bracket arrives with no group open, or one whose
character does not pair with the innermost opener per the bracket table, the
build fails with a structural error (an exception, not a diagnostic list),
and `process` propagates that same error — the evaluator never runs. -/
theorem close_mismatch_fails
    (pre post : List TokenInfo) (tok : TokenInfo) (st : ParseState)
    (hpre : processList pre initState = Except.ok st)
    (hskip : (tok.type == ENDMARKER || WHITESPACE_TOKENS.contains tok.type) = false)
    (hkind : NodeKind.from_token tok = NodeKind.close_paren)
    (hbad : st.stack = [] ∨
      ∀ g gs, st.stack = g :: gs → expected_end_table g.start.string ≠ some tok.string) :
    ∃ msg, parse_ast (pre ++ tok :: post) = Except.error msg ∧
           process (pre ++ tok :: post) = Except.error msg := by
  have hrun : ∀ msg, parse_step st tok = Except.error msg →
      processList (pre ++ tok :: post) initState = Except.error msg := by
    intro msg hps
    rw [processList_append, hpre]
    show processList (tok :: post) st = Except.error msg
    rw [processList_cons, hps]
    rfl
  have hfin : ∀ msg, parse_step st tok = Except.error msg →
      parse_ast (pre ++ tok :: post) = Except.error msg ∧
      process (pre ++ tok :: post) = Except.error msg := by
    intro msg hps
    have h1 := parse_ast_of_processList_error _ _ (hrun msg hps)
    exact ⟨h1, process_of_parse_ast_error _ _ h1⟩
  cases hstk : st.stack with
  | nil =>
      refine ⟨"IndexError: pop from empty list", hfin _ ?_⟩
      rw [parse_step_close st tok hskip hkind,
        extendCurrent_stack_nil st (flushNodes st) [] hstk]
  | cons g gs =>
      have hmis : expected_end_table g.start.string ≠ some tok.string := by
        rcases hbad with hnil | hmis
        · rw [hstk] at hnil; cases hnil
        · exact hmis g gs hstk
      cases hexp : expected_end_table g.start.string with
      | none =>
          refine ⟨"KeyError", hfin _ ?_⟩
          rw [parse_step_close st tok hskip hkind,
            extendCurrent_stack_cons st (flushNodes st) [] g gs hstk]
          show (do
            let node ← ParensGroupNode.make g.start (g.children ++ flushNodes st) tok
            Except.ok (ParseState.appendCurrent
              { st.extendCurrent (flushNodes st) [] with stack := gs } node)) = _
          rw [make_keyerror _ _ _ hexp]
          rfl
      | some exp =>
          have hne : (tok.string == exp) = false := by
            rw [beq_eq_false_iff_ne]
            intro he
            exact hmis (by rw [hexp, he])
          refine ⟨"ValueError: Start and end must be the same kind of bracket", hfin _ ?_⟩
          rw [parse_step_close st tok hskip hkind,
            extendCurrent_stack_cons st (flushNodes st) [] g gs hstk]
          show (do
            let node ← ParensGroupNode.make g.start (g.children ++ flushNodes st) tok
            Except.ok (ParseState.appendCurrent
              { st.extendCurrent (flushNodes st) [] with stack := gs } node)) = _
          rw [make_mismatch _ _ _ exp hexp hne]
          rfl

/-- Witness for C8 on a lone closing parenthesis (extra closer). -/
theorem close_mismatch_fails_witness :
    ∃ msg, parse_ast ([] ++ c8tok :: []) = Except.error msg ∧
           process ([] ++ c8tok :: []) = Except.error msg :=
  close_mismatch_fails [] [] c8tok initState rfl (by decide) (by decide) (Or.inl rfl)

/-- C7: the Group's children are partitioned into segments exactly by
splitting on top-level comma leaves — commas are consumed, each maximal run
of consecutive non-comma children forms one segment, no empty segment (in
particular none after a trailing comma) — and the evaluated item sequence is
the opening leaf, the segments, then the closing leaf. -/
theorem iter_comma_separated_matches_claim (s : TokenInfo) (cs : List Node) (e : TokenInfo) :
    ParensGroupNode.iter_comma_separated s cs e =
      Node.singleTokenNode s :: (claimSegments cs).map Node.node ++ [Node.singleTokenNode e] := by
  unfold ParensGroupNode.iter_comma_separated
  rw [segments_eq]

/-!
## Claim C4: balanced input builds, preserving the significant tokens
-/

theorem skip_other (t : TokenInfo)
    (h : (t.type == ENDMARKER || WHITESPACE_TOKENS.contains t.type) = true) :
    NodeKind.from_token t = NodeKind.other := by
  have hne : (t.type == OP) = false := by
    rw [beq_eq_false_iff_ne]
    intro hop
    rw [hop] at h
    exact absurd h (by decide)
  unfold NodeKind.from_token
  rw [hne]
  rfl

theorem notskip_of_kind (t : TokenInfo) (h : NodeKind.from_token t ≠ NodeKind.other) :
    (t.type == ENDMARKER || WHITESPACE_TOKENS.contains t.type) = false := by
  have hop : (t.type == OP) = true := by
    by_contra hno
    rw [Bool.not_eq_true] at hno
    apply h
    unfold NodeKind.from_token
    rw [hno]
    rfl
  have : t.type = OP := by simpa using hop
  rw [this]
  decide

theorem extendCurrent_setSpare (st : ParseState) (x : List TokenInfo)
    (ns : List Node) (sp : List TokenInfo) :
    ({ st with spare_tokens := x } : ParseState).extendCurrent ns sp
      = st.extendCurrent ns sp := by
  obtain ⟨stk, rc, sp0⟩ := st
  cases stk <;> rfl

theorem ParseState.eta_spare (st : ParseState) (h : st.spare_tokens = []) :
    (⟨st.stack, st.rootChildren, []⟩ : ParseState) = st := by
  obtain ⟨stk, rc, sp⟩ := st
  simp only at h
  subst h
  rfl

theorem leafTokensList_append (l1 l2 : List Node) :
    Node.leafTokensList (l1 ++ l2) = Node.leafTokensList l1 ++ Node.leafTokensList l2 := by
  induction l1 with
  | nil => rfl
  | cons c cs ih => simp [Node.leafTokensList, ih]

theorem leafTokensList_flush (st : ParseState) :
    Node.leafTokensList (flushNodes st) = [] := by
  unfold flushNodes
  by_cases h : st.spare_tokens.isEmpty <;> simp [h, Node.leafTokensList, Node.leafTokens]

theorem sig_cons_other (t : TokenInfo) (ts : List TokenInfo)
    (h : NodeKind.from_token t = NodeKind.other) :
    sigTokens (t :: ts) = sigTokens ts := by
  simp [sigTokens, List.filter_cons, h]

theorem sig_cons_sig (t : TokenInfo) (ts : List TokenInfo)
    (h : NodeKind.from_token t ≠ NodeKind.other) :
    sigTokens (t :: ts) = t :: sigTokens ts := by
  have hb : (NodeKind.from_token t == NodeKind.other) = false := by
    rw [beq_eq_false_iff_ne]; exact h
  simp [sigTokens, List.filter_cons, hb]

theorem sig_append (l1 l2 : List TokenInfo) :
    sigTokens (l1 ++ l2) = sigTokens l1 ++ sigTokens l2 :=
  List.filter_append l1 l2

/-- The main induction for claim C4: processing a balanced stretch of tokens
from any state succeeds, appends some nodes to the current child list (and
replaces the pending buffer), and those nodes carry exactly the significant
tokens of the stretch, in order. -/
theorem processList_balanced (l : List TokenInfo) (hb : Balanced l) :
    ∀ st : ParseState, ∃ ns sp,
      processList l st = Except.ok (st.extendCurrent ns sp) ∧
      Node.leafTokensList ns = sigTokens l := by
  induction hb with
  | nil =>
      intro st
      refine ⟨[], st.spare_tokens, ?_, rfl⟩
      rw [extendCurrent_nil]
      rfl
  | flat t ts hno hnc hbts ih =>
      intro st
      by_cases hsk : (t.type == ENDMARKER || WHITESPACE_TOKENS.contains t.type) = true
      · obtain ⟨ns, sp, h1, h2⟩ := ih st
        refine ⟨ns, sp, ?_, ?_⟩
        · rw [processList_cons, parse_step_skip st t hsk]
          exact h1
        · rw [h2, sig_cons_other t ts (skip_other t hsk)]
      · rw [Bool.not_eq_true] at hsk
        cases hk : NodeKind.from_token t with
        | open_paren => exact absurd hk hno
        | close_paren => exact absurd hk hnc
        | other =>
            obtain ⟨ns, sp, h1, h2⟩ := ih { st with spare_tokens := st.spare_tokens ++ [t] }
            refine ⟨ns, sp, ?_, ?_⟩
            · rw [processList_cons, parse_step_other st t hsk hk]
              show processList ts { st with spare_tokens := st.spare_tokens ++ [t] } = _
              rw [h1, extendCurrent_setSpare]
            · rw [h2, sig_cons_other t ts hk]
        | comma =>
            obtain ⟨ns, sp, h1, h2⟩ :=
              ih (st.extendCurrent (flushNodes st ++ [Node.singleTokenNode t]) [])
            refine ⟨flushNodes st ++ [Node.singleTokenNode t] ++ ns, sp, ?_, ?_⟩
            · rw [processList_cons, parse_step_comma st t hsk hk]
              have hst2 : (st.extendCurrent (flushNodes st) []).appendCurrent
                    (Node.singleTokenNode t)
                  = st.extendCurrent (flushNodes st ++ [Node.singleTokenNode t]) [] := by
                rw [appendCurrent_eq, extendCurrent_spareTokens, extend_extend]
              rw [hst2]
              show processList ts
                (st.extendCurrent (flushNodes st ++ [Node.singleTokenNode t]) []) = _
              rw [h1, extend_extend, List.append_assoc]
            · rw [leafTokensList_append, leafTokensList_append, leafTokensList_flush, h2,
                sig_cons_sig t ts (by rw [hk]; decide)]
              simp [Node.leafTokensList, Node.leafTokens]
  | group o c inner rest ho hc hm hbi hbr ihi ihr =>
      intro st
      have hgo : (o.type == ENDMARKER || WHITESPACE_TOKENS.contains o.type) = false :=
        notskip_of_kind o (by rw [ho]; decide)
      have hgc : (c.type == ENDMARKER || WHITESPACE_TOKENS.contains c.type) = false :=
        notskip_of_kind c (by rw [hc]; decide)
      obtain ⟨nsI, spI, hI1, hI2⟩ := ihi
        { st.extendCurrent (flushNodes st) [] with
            stack := OpenParensGroup.mk o [] :: (st.extendCurrent (flushNodes st) []).stack }
      -- the state after the inner stretch, in explicit form
      have hshape : ({ st.extendCurrent (flushNodes st) [] with
            stack := OpenParensGroup.mk o [] ::
              (st.extendCurrent (flushNodes st) []).stack } : ParseState).extendCurrent nsI spI
          = ⟨OpenParensGroup.mk o nsI :: (st.extendCurrent (flushNodes st) []).stack,
              (st.extendCurrent (flushNodes st) []).rootChildren, spI⟩ := rfl
      -- closing the group from that state
      have hflush3 : flushNodes ⟨OpenParensGroup.mk o nsI ::
            (st.extendCurrent (flushNodes st) []).stack,
            (st.extendCurrent (flushNodes st) []).rootChildren, spI⟩
          = (if spI.isEmpty then [] else [Node.multiTokenNode spI]) := rfl
      have hmake : ParensGroupNode.make o
            (nsI ++ (if spI.isEmpty then [] else [Node.multiTokenNode spI])) c
          = Except.ok (Node.parensGroupNode o
              (nsI ++ (if spI.isEmpty then [] else [Node.multiTokenNode spI])) c) := by
        unfold ParensGroupNode.make ParensGroupNode.validate_start_end
        rw [hm]
        simp
      obtain ⟨nsR, spR, hR1, hR2⟩ := ihr
        (st.extendCurrent (flushNodes st ++ [Node.parensGroupNode o
          (nsI ++ (if spI.isEmpty then [] else [Node.multiTokenNode spI])) c]) [])
      refine ⟨flushNodes st ++ [Node.parensGroupNode o
          (nsI ++ (if spI.isEmpty then [] else [Node.multiTokenNode spI])) c] ++ nsR,
        spR, ?_, ?_⟩
      · rw [processList_cons, parse_step_open st o hgo ho]
        show processList (inner ++ c :: rest)
          { st.extendCurrent (flushNodes st) [] with
              stack := OpenParensGroup.mk o [] ::
                (st.extendCurrent (flushNodes st) []).stack } = _
        rw [processList_append, hI1, hshape]
        show processList (c :: rest)
          ⟨OpenParensGroup.mk o nsI :: (st.extendCurrent (flushNodes st) []).stack,
            (st.extendCurrent (flushNodes st) []).rootChildren, spI⟩ = _
        rw [processList_cons, parse_step_close _ c hgc hc]
        -- the flushed closing-time state has the frame on top
        show (do
          let node ← ParensGroupNode.make o
            (nsI ++ (if spI.isEmpty then [] else [Node.multiTokenNode spI])) c
          Except.ok (ParseState.appendCurrent
            ⟨(st.extendCurrent (flushNodes st) []).stack,
              (st.extendCurrent (flushNodes st) []).rootChildren, []⟩ node)).bind
            (fun st2 => processList rest st2) = _
        rw [hmake]
        show processList rest
          (ParseState.appendCurrent
            ⟨(st.extendCurrent (flushNodes st) []).stack,
              (st.extendCurrent (flushNodes st) []).rootChildren, []⟩
            (Node.parensGroupNode o
              (nsI ++ (if spI.isEmpty then [] else [Node.multiTokenNode spI])) c)) = _
        have hFeta : (⟨(st.extendCurrent (flushNodes st) []).stack,
              (st.extendCurrent (flushNodes st) []).rootChildren, []⟩ : ParseState)
            = st.extendCurrent (flushNodes st) [] :=
          ParseState.eta_spare _ (extendCurrent_spareTokens st (flushNodes st) [])
        rw [hFeta, appendCurrent_eq, extendCurrent_spareTokens, extend_extend, hR1,
          extend_extend, List.append_assoc]
      · rw [leafTokensList_append, leafTokensList_append, leafTokensList_flush]
        have hnode : Node.leafTokensList [Node.parensGroupNode o
              (nsI ++ (if spI.isEmpty then [] else [Node.multiTokenNode spI])) c]
            = o :: sigTokens inner ++ [c] := by
          show Node.leafTokens (Node.parensGroupNode o
              (nsI ++ (if spI.isEmpty then [] else [Node.multiTokenNode spI])) c) ++ [] = _
          rw [List.append_nil]
          show o :: Node.leafTokensList
              (nsI ++ (if spI.isEmpty then [] else [Node.multiTokenNode spI])) ++ [c] = _
          rw [leafTokensList_append, hI2]
          by_cases hsp : spI.isEmpty <;>
            simp [hsp, Node.leafTokensList, Node.leafTokens]
        rw [hnode, hR2]
        rw [sig_cons_sig o _ (by rw [ho]; decide), sig_append,
          sig_cons_sig c _ (by rw [hc]; decide)]
        simp

/-- C4: for every balanced-bracket token sequence the build succeeds, and the
tokens wrapped by single-token leaves of the tree, in left-to-right tree
order, are exactly the Comma/OpenBracket/CloseBracket tokens of the input in
original order. -/
theorem balanced_build_leaf_tokens (tokens : List TokenInfo) (hb : Balanced tokens) :
    ∃ root, parse_ast tokens = Except.ok root ∧
      Node.leafTokens root = sigTokens tokens := by
  obtain ⟨ns, sp, h1, h2⟩ := processList_balanced tokens hb initState
  refine ⟨Node.node (if sp.isEmpty then ns else ns ++ [Node.multiTokenNode sp]), ?_, ?_⟩
  · unfold parse_ast
    rw [h1]
    show Except.ok (Node.node
      (if ((initState.extendCurrent ns sp).spare_tokens).isEmpty
       then (initState.extendCurrent ns sp).rootChildren
       else (initState.extendCurrent ns sp).rootChildren
         ++ [Node.multiTokenNode (initState.extendCurrent ns sp).spare_tokens]) : Node) = _
    rfl
  · show Node.leafTokensList (if sp.isEmpty then ns else ns ++ [Node.multiTokenNode sp])
        = sigTokens tokens
    by_cases hsp : sp.isEmpty <;>
      simp [hsp, leafTokensList_append, h2, Node.leafTokensList, Node.leafTokens]

/-!
## Claim C10: evaluation succeeds on every tree the builder produces
-/

theorem posOk_iff (n : Node) :
    posOk n = true ↔ n.start_pos.isSome = true ∧ n.end_line.isSome = true := by
  simp [posOk, Bool.and_eq_true]

theorem wfList_mem (cs : List Node) (h : wfList cs = true) :
    ∀ c ∈ cs, wfNode c = true ∧ posOk c = true := by
  induction cs with
  | nil => intro c hc; cases hc
  | cons a l ih =>
      have h2 : (wfNode a && posOk a && wfList l) = true := h
      simp only [Bool.and_eq_true] at h2
      intro c hc
      rcases List.mem_cons.mp hc with rfl | hc
      · exact ⟨h2.1.1, h2.1.2⟩
      · exact ih h2.2 c hc

theorem endLineLast_isSome (l : List Node) (hne : l ≠ [])
    (h : ∀ c ∈ l, (Node.end_line c).isSome = true) :
    (Node.endLineLast l).isSome = true := by
  induction l with
  | nil => exact absurd rfl hne
  | cons a l2 ih =>
      cases l2 with
      | nil => exact h a (List.mem_singleton.mpr rfl)
      | cons b l3 =>
          show (Node.endLineLast (b :: l3)).isSome = true
          exact ih (List.cons_ne_nil b l3) (fun c hc => h c (List.mem_cons_of_mem a hc))

theorem groupby_chunks (cs : List Node) :
    ∀ kg ∈ groupby_is_comma cs, kg.2 ≠ [] ∧ ∀ x ∈ kg.2, x ∈ cs := by
  induction cs with
  | nil => intro kg hkg; cases hkg
  | cons x xs ih =>
      cases xs with
      | nil =>
          intro kg hkg
          have : kg = (is_comma x, [x]) := List.mem_singleton.mp hkg
          subst this
          exact ⟨List.cons_ne_nil x [], fun z hz => hz⟩
      | cons y ys =>
          obtain ⟨run, gs, hgb⟩ := gb_head y ys
          have hhead : (is_comma y, y :: run) ∈ groupby_is_comma (y :: ys) := by
            rw [hgb]; exact List.mem_cons_self _ _
          by_cases hk : (is_comma x == is_comma y) = true
          · have hgbx : groupby_is_comma (x :: y :: ys) = (is_comma y, x :: y :: run) :: gs := by
              simp only [groupby_is_comma]
              rw [hgb, if_pos hk]
            intro kg hkg
            rw [hgbx] at hkg
            rcases List.mem_cons.mp hkg with rfl | hkg
            · refine ⟨List.cons_ne_nil _ _, ?_⟩
              intro z hz
              rcases List.mem_cons.mp hz with rfl | hz
              · exact List.mem_cons_self _ _
              · exact List.mem_cons_of_mem x ((ih (is_comma y, y :: run) hhead).2 z hz)
            · have hsub : kg ∈ groupby_is_comma (y :: ys) := by
                rw [hgb]; exact List.mem_cons_of_mem _ hkg
              obtain ⟨hn, hs⟩ := ih kg hsub
              exact ⟨hn, fun z hz => List.mem_cons_of_mem x (hs z hz)⟩
          · rw [Bool.not_eq_true] at hk
            have hgbx : groupby_is_comma (x :: y :: ys) =
                (is_comma x, [x]) :: groupby_is_comma (y :: ys) := by
              simp only [groupby_is_comma]
              rw [if_neg (by simp [hk])]
            intro kg hkg
            rw [hgbx] at hkg
            rcases List.mem_cons.mp hkg with rfl | hkg
            · exact ⟨List.cons_ne_nil _ _, fun z hz => by
                rcases List.mem_singleton.mp hz with rfl
                exact List.mem_cons_self _ _⟩
            · obtain ⟨hn, hs⟩ := ih kg hkg
              exact ⟨hn, fun z hz => List.mem_cons_of_mem x (hs z hz)⟩

theorem statesOfPairs_isSome (ps : List (Node × Node))
    (h : ∀ pc ∈ ps, (Node.end_line pc.1).isSome = true ∧ (Node.start_pos pc.2).isSome = true) :
    (statesOfPairs ps).isSome = true := by
  induction ps with
  | nil => rfl
  | cons pc rest ih =>
      obtain ⟨hel, hsp⟩ := h pc (List.mem_cons_self _ _)
      obtain ⟨el, hel2⟩ := Option.isSome_iff_exists.mp hel
      obtain ⟨p, hp2⟩ := Option.isSome_iff_exists.mp hsp
      have htl := ih (fun q hq => h q (List.mem_cons_of_mem pc hq))
      obtain ⟨tl, htl2⟩ := Option.isSome_iff_exists.mp htl
      show ((pc.1.end_line).bind (fun el => (pc.2.start_line).bind
        (fun sl => (statesOfPairs rest).bind
          (fun tl => some ((el == sl, pc.2) :: tl))))).isSome = true
      rw [hel2, Node.start_line, hp2, htl2]
      rfl

theorem statesOfPairs_snd (ps : List (Node × Node)) :
    ∀ qs, statesOfPairs ps = some qs →
      qs.map (fun q => q.2) = ps.map (fun pc => pc.2) := by
  induction ps with
  | nil =>
      intro qs h
      have h2 : [] = qs := Option.some.inj h
      subst h2
      rfl
  | cons pc rest ih =>
      intro qs h
      have h2 : ((pc.1.end_line).bind (fun el => (pc.2.start_line).bind
        (fun sl => (statesOfPairs rest).bind
          (fun tl => some ((el == sl, pc.2) :: tl))))) = some qs := h
      cases hel : pc.1.end_line with
      | none => rw [hel] at h2; cases h2
      | some el =>
          rw [hel] at h2
          cases hsl : pc.2.start_line with
          | none => rw [hsl] at h2; cases h2
          | some sl =>
              rw [hsl] at h2
              cases htl : statesOfPairs rest with
              | none => rw [htl] at h2; cases h2
              | some tl =>
                  rw [htl] at h2
                  have : (el == sl, pc.2) :: tl = qs := Option.some.inj h2
                  subst this
                  simp [ih tl htl]

theorem node_error_isSome (x : Node) (h : (Node.start_pos x).isSome = true) :
    (node_error x).isSome = true := by
  obtain ⟨p, hp⟩ := Option.isSome_iff_exists.mp h
  cases x with
  | node cs => simp [node_error, hp]
  | singleTokenNode t =>
      by_cases hc : (NodeKind.from_token t == NodeKind.close_paren) = true <;>
        simp [node_error, hp, hc]
  | multiTokenNode ts => simp [node_error, hp]
  | parensGroupNode s cs e => simp [node_error, hp]

theorem errorsOf_isSome (xs : List Node)
    (h : ∀ x ∈ xs, (Node.start_pos x).isSome = true) :
    (errorsOf xs).isSome = true := by
  induction xs with
  | nil => rfl
  | cons x rest ih =>
      obtain ⟨e, he⟩ := Option.isSome_iff_exists.mp
        (node_error_isSome x (h x (List.mem_cons_self _ _)))
      obtain ⟨tl, htl⟩ := Option.isSome_iff_exists.mp
        (ih (fun z hz => h z (List.mem_cons_of_mem x hz)))
      show ((node_error x).bind (fun e => (errorsOf rest).bind
        (fun tl => some (e :: tl)))).isSome = true
      rw [he, htl]
      rfl

theorem iter_items_pos (s : TokenInfo) (cs : List Node) (e : TokenInfo)
    (h : wfList cs = true) :
    ∀ item ∈ ParensGroupNode.iter_comma_separated s cs e,
      (Node.start_pos item).isSome = true ∧ (Node.end_line item).isSome = true := by
  intro item hitem
  unfold ParensGroupNode.iter_comma_separated at hitem
  rcases List.mem_cons.mp hitem with rfl | hitem
  · exact ⟨rfl, rfl⟩
  rcases List.mem_append.mp hitem with hitem | hitem
  · obtain ⟨kg, hkg, hsel⟩ := List.mem_filterMap.mp hitem
    have hkey : kg.1 = false := by
      by_contra hkey
      rw [Bool.not_eq_false] at hkey
      rw [if_pos hkey] at hsel
      cases hsel
    rw [if_neg (by simp [hkey])] at hsel
    have hitem2 : item = Node.node kg.2 := (Option.some.inj hsel).symm
    subst hitem2
    obtain ⟨hne, hsub⟩ := groupby_chunks cs kg hkg
    constructor
    · cases hchunk : kg.2 with
      | nil => exact absurd hchunk hne
      | cons c0 tl =>
          show (Node.startPosFirst (c0 :: tl)).isSome = true
          show (Node.start_pos c0).isSome = true
          have hc0 : c0 ∈ cs := hsub c0 (by rw [hchunk]; exact List.mem_cons_self _ _)
          exact ((posOk_iff c0).mp (wfList_mem cs h c0 hc0).2).1
    · show (Node.endLineLast kg.2).isSome = true
      refine endLineLast_isSome kg.2 hne (fun c hc => ?_)
      have hcin : c ∈ cs := hsub c hc
      exact ((posOk_iff c).mp (wfList_mem cs h c hcin).2).2
  · rcases List.mem_singleton.mp hitem with rfl
    exact ⟨rfl, rfl⟩

theorem vpge_isSome (s : TokenInfo) (cs : List Node) (e : TokenInfo)
    (h : wfList cs = true) :
    (visitParensGroupNode_errors s cs e).isSome = true := by
  have hitems := iter_items_pos s cs e h
  have hzip : zip_with_prev (ParensGroupNode.iter_comma_separated s cs e)
      = some ((ParensGroupNode.iter_comma_separated s cs e).zip
          (ParensGroupNode.iter_comma_separated s cs e).tail) := rfl
  have hpairs : ∀ pc ∈ (ParensGroupNode.iter_comma_separated s cs e).zip
      (ParensGroupNode.iter_comma_separated s cs e).tail,
      (Node.end_line pc.1).isSome = true ∧ (Node.start_pos pc.2).isSome = true := by
    intro pc hpc
    obtain ⟨h1, h2⟩ := List.of_mem_zip hpc
    exact ⟨(hitems pc.1 h1).2, (hitems pc.2 (List.mem_of_mem_tail h2)).1⟩
  obtain ⟨qs, hqs⟩ := Option.isSome_iff_exists.mp (statesOfPairs_isSome _ hpairs)
  have hsnd := statesOfPairs_snd _ qs hqs
  have hsls : ∀ x ∈ (qs.filter (fun p => p.1)).map (fun p => p.2),
      (Node.start_pos x).isSome = true := by
    intro x hx
    obtain ⟨q, hq, hqx⟩ := List.mem_map.mp hx
    have hq2 : q ∈ qs := List.mem_of_mem_filter hq
    have : x ∈ qs.map (fun q => q.2) := by
      rw [← hqx]; exact List.mem_map_of_mem _ hq2
    rw [hsnd] at this
    obtain ⟨pc, hpc, hpcx⟩ := List.mem_map.mp this
    have := (hpairs pc hpc).2
    rw [hpcx] at this
    exact this
  show ((zip_with_prev (ParensGroupNode.iter_comma_separated s cs e)).bind
    (fun pairs => (statesOfPairs pairs).bind
      (fun states =>
        if !((states.filter (fun p => p.1)).map (fun p => p.2)).isEmpty
            && ((states.filter (fun p => p.1)).map (fun p => p.2)).length < states.length
        then errorsOf ((states.filter (fun p => p.1)).map (fun p => p.2))
        else some []))).isSome = true
  rw [hzip, Option.some_bind, hqs, Option.some_bind]
  by_cases hcond : (!((qs.filter (fun p => p.1)).map (fun p => p.2)).isEmpty
      && ((qs.filter (fun p => p.1)).map (fun p => p.2)).length < qs.length) = true
  · rw [if_pos hcond]
    exact errorsOf_isSome _ hsls
  · rw [if_neg hcond]
    rfl

mutual

theorem visit_isSome : ∀ (n : Node), wfNode n = true → ∀ v : ValidatingVisitor,
    (visit v n).isSome = true
  | Node.node cs, h, v => visitChildren_isSome cs h v
  | Node.singleTokenNode t, h, v => rfl
  | Node.multiTokenNode ts, h, v => rfl
  | Node.parensGroupNode s cs e, h, v => by
      by_cases hg : (s.start.1 == e.stop.1 || cs.isEmpty) = true
      · simp [visit, hg]
      · rw [Bool.not_eq_true] at hg
        simp only [visit, hg, Bool.false_eq_true, if_false]
        have hwf : wfList cs = true := h
        obtain ⟨new, hnew⟩ := Option.isSome_iff_exists.mp (vpge_isSome s cs e hwf)
        show ((visitParensGroupNode_errors s cs e).bind (fun new =>
          visitChildren { v with errors := v.errors ++ new } cs)).isSome = true
        rw [hnew, Option.some_bind]
        exact visitChildren_isSome cs hwf { v with errors := v.errors ++ new }

theorem visitChildren_isSome : ∀ (cs : List Node), wfList cs = true →
    ∀ v : ValidatingVisitor, (visitChildren v cs).isSome = true
  | [], h, v => rfl
  | c :: cs, h, v => by
      have h2 : (wfNode c && posOk c && wfList cs) = true := h
      simp only [Bool.and_eq_true] at h2
      obtain ⟨w, hw⟩ := Option.isSome_iff_exists.mp (visit_isSome c h2.1.1 v)
      show ((visit v c).bind (fun w => visitChildren w cs)).isSome = true
      rw [hw, Option.some_bind]
      exact visitChildren_isSome cs h2.2 w

end

theorem wfList_append_iff (l1 l2 : List Node) :
    wfList (l1 ++ l2) = true ↔ wfList l1 = true ∧ wfList l2 = true := by
  induction l1 with
  | nil => simp [wfList]
  | cons c cs ih =>
      show (wfNode c && posOk c && wfList (cs ++ l2)) = true ↔
        ((wfNode c && posOk c && wfList cs) = true ∧ wfList l2 = true)
      simp only [Bool.and_eq_true, ih]
      tauto

theorem wf_flushNodes (st : ParseState) : wfList (flushNodes st) = true := by
  unfold flushNodes
  by_cases hsp : st.spare_tokens.isEmpty = true
  · rw [if_pos hsp]; rfl
  · rw [if_neg (by simp [hsp])]
    show (wfNode (Node.multiTokenNode st.spare_tokens)
      && posOk (Node.multiTokenNode st.spare_tokens) && true) = true
    rw [Bool.not_eq_true] at hsp
    cases hcs : st.spare_tokens with
    | nil => rw [hcs] at hsp; cases hsp
    | cons a l => rfl

theorem extendCurrent_inv (st : ParseState) (ns : List Node) (sp : List TokenInfo)
    (hinv : StInv st) (hns : wfList ns = true) : StInv (st.extendCurrent ns sp) := by
  obtain ⟨stk, rc, sp0⟩ := st
  obtain ⟨hroot, hframes⟩ := hinv
  cases stk with
  | nil =>
      refine ⟨?_, ?_⟩
      · exact (wfList_append_iff rc ns).mpr ⟨hroot, hns⟩
      · intro g hg; cases hg
  | cons g0 gs0 =>
      refine ⟨hroot, ?_⟩
      intro g hg
      rcases List.mem_cons.mp hg with rfl | hg
      · exact (wfList_append_iff g0.children ns).mpr
          ⟨hframes g0 (List.mem_cons_self _ _), hns⟩
      · exact hframes g (List.mem_cons_of_mem _ hg)

theorem appendCurrent_inv (st : ParseState) (n : Node)
    (hinv : StInv st) (hn : wfNode n = true) (hp : posOk n = true) :
    StInv (st.appendCurrent n) := by
  rw [appendCurrent_eq]
  refine extendCurrent_inv st [n] st.spare_tokens hinv ?_
  show (wfNode n && posOk n && true) = true
  simp [hn, hp]

theorem make_ok_shape (a : TokenInfo) (b : List Node) (c : TokenInfo) (n : Node)
    (h : ParensGroupNode.make a b c = Except.ok n) :
    n = Node.parensGroupNode a b c := by
  unfold ParensGroupNode.make at h
  cases hv : ParensGroupNode.validate_start_end a c with
  | error msg => rw [hv] at h; cases h
  | ok u =>
      rw [hv] at h
      cases u
      exact (Except.ok.inj h).symm

theorem step_inv (st : ParseState) (tok : TokenInfo) (st2 : ParseState)
    (hinv : StInv st) (h : parse_step st tok = Except.ok st2) : StInv st2 := by
  by_cases hsk : (tok.type == ENDMARKER || WHITESPACE_TOKENS.contains tok.type) = true
  · rw [parse_step_skip st tok hsk] at h
    rw [← Except.ok.inj h]
    exact hinv
  · rw [Bool.not_eq_true] at hsk
    cases hk : NodeKind.from_token tok with
    | other =>
        rw [parse_step_other st tok hsk hk] at h
        rw [← Except.ok.inj h]
        exact ⟨hinv.1, hinv.2⟩
    | comma =>
        rw [parse_step_comma st tok hsk hk] at h
        rw [← Except.ok.inj h]
        exact appendCurrent_inv _ _
          (extendCurrent_inv st (flushNodes st) [] hinv (wf_flushNodes st)) rfl rfl
    | open_paren =>
        rw [parse_step_open st tok hsk hk] at h
        rw [← Except.ok.inj h]
        have hflushed := extendCurrent_inv st (flushNodes st) [] hinv (wf_flushNodes st)
        refine ⟨hflushed.1, ?_⟩
        intro g hg
        rcases List.mem_cons.mp hg with rfl | hg
        · rfl
        · exact hflushed.2 g hg
    | close_paren =>
        rw [parse_step_close st tok hsk hk] at h
        have hflushed := extendCurrent_inv st (flushNodes st) [] hinv (wf_flushNodes st)
        cases hstk : (st.extendCurrent (flushNodes st) []).stack with
        | nil => rw [hstk] at h; cases h
        | cons g gs =>
            rw [hstk] at h
            have h1 : (ParensGroupNode.make g.start g.children tok).bind (fun node =>
                Except.ok (ParseState.appendCurrent
                  { st.extendCurrent (flushNodes st) [] with stack := gs } node))
                = Except.ok st2 := h
            cases hmk : ParensGroupNode.make g.start g.children tok with
            | error msg => rw [hmk] at h1; cases h1
            | ok node =>
                rw [hmk] at h1
                have hnode := make_ok_shape _ _ _ _ hmk
                have h2 : ParseState.appendCurrent
                    { st.extendCurrent (flushNodes st) [] with stack := gs } node = st2 :=
                  Except.ok.inj h1
                rw [← h2]
                have hsub : StInv { st.extendCurrent (flushNodes st) [] with stack := gs } := by
                  refine ⟨hflushed.1, ?_⟩
                  intro g2 hg2
                  refine hflushed.2 g2 ?_
                  rw [hstk]
                  exact List.mem_cons_of_mem _ hg2
                refine appendCurrent_inv _ _ hsub ?_ ?_
                · rw [hnode]
                  show wfList g.children = true
                  exact hflushed.2 g (by rw [hstk]; exact List.mem_cons_self _ _)
                · rw [hnode]; rfl

theorem processList_inv (l : List TokenInfo) :
    ∀ st st2 : ParseState, StInv st → processList l st = Except.ok st2 → StInv st2 := by
  induction l with
  | nil =>
      intro st st2 hinv h
      rw [← Except.ok.inj h]
      exact hinv
  | cons t ts ih =>
      intro st st2 hinv h
      rw [processList_cons] at h
      cases hps : parse_step st t with
      | error msg => rw [hps] at h; cases h
      | ok st1 =>
          rw [hps] at h
          exact ih st1 st2 (step_inv st t st1 hinv hps) h

theorem parse_ast_wf (tokens : List TokenInfo) (root : Node)
    (h : parse_ast tokens = Except.ok root) : wfNode root = true := by
  unfold parse_ast at h
  cases hpl : processList tokens initState with
  | error msg => rw [hpl] at h; cases h
  | ok st =>
      rw [hpl] at h
      have hinv : StInv st := processList_inv tokens initState st
        ⟨rfl, fun g hg => by cases hg⟩ hpl
      have hroot : root = Node.node
          (if st.spare_tokens.isEmpty then st.rootChildren
           else st.rootChildren ++ [Node.multiTokenNode st.spare_tokens]) :=
        (Except.ok.inj h).symm
      rw [hroot]
      show wfList (if st.spare_tokens.isEmpty then st.rootChildren
        else st.rootChildren ++ [Node.multiTokenNode st.spare_tokens]) = true
      by_cases hsp : st.spare_tokens.isEmpty = true
      · rw [if_pos hsp]; exact hinv.1
      · rw [if_neg (by simp [hsp])]
        refine (wfList_append_iff _ _).mpr ⟨hinv.1, ?_⟩
        rw [Bool.not_eq_true] at hsp
        show (wfNode (Node.multiTokenNode st.spare_tokens)
          && posOk (Node.multiTokenNode st.spare_tokens) && true) = true
        cases hcs : st.spare_tokens with
        | nil => rw [hcs] at hsp; cases hsp
        | cons a l => rfl

/-- C10: on every tree `parse_ast` actually returns, `validate` returns
normally — every synthetic segment is non-empty, every Run holds a token,
`iter_comma_separated` always yields the two bracket leaves so pairing with
the predecessor never advances an empty iterator, and every `start_pos` /
`end_line` access succeeds. -/
theorem parse_ok_validate_ok :
    (∀ tokens root, parse_ast tokens = Except.ok root → (validate root).isSome = true) ∧
    (∀ s cs e, 2 ≤ (ParensGroupNode.iter_comma_separated s cs e).length) ∧
    (∀ cs, ∀ kg ∈ groupby_is_comma cs, kg.2 ≠ []) := by
  refine ⟨?_, ?_, ?_⟩
  · intro tokens root h
    have hwf := parse_ast_wf tokens root h
    unfold validate
    obtain ⟨w, hw⟩ := Option.isSome_iff_exists.mp (visit_isSome root hwf ⟨[], false⟩)
    rw [hw]
    rfl
  · intro s cs e
    show 2 ≤ (Node.singleTokenNode s ::
      ((groupby_is_comma cs).filterMap
        (fun kg => if kg.1 then none else some (Node.node kg.2))
       ++ [Node.singleTokenNode e])).length
    simp
  · intro cs kg hkg
    exact (groupby_chunks cs kg hkg).1

/-- Witness for C10: each conjunct applied at a concrete input. -/
theorem parse_ok_validate_ok_witness :
    (validate (Node.node [])).isSome = true ∧
    2 ≤ (ParensGroupNode.iter_comma_separated c1open [] c1close).length ∧
    ([Node.singleTokenNode c1comma] : List Node) ≠ [] :=
  ⟨parse_ok_validate_ok.1 [] (Node.node []) rfl,
   parse_ok_validate_ok.2.1 c1open [] c1close,
   parse_ok_validate_ok.2.2 [Node.singleTokenNode c1comma]
     (true, [Node.singleTokenNode c1comma])
     (by rw [show groupby_is_comma [Node.singleTokenNode c1comma]
           = [(is_comma (Node.singleTokenNode c1comma), [Node.singleTokenNode c1comma])] from rfl]
         exact List.mem_singleton.mpr (by rfl))⟩

/-- Witness for C4 on the tokens of `foo(a, b)`. -/
theorem balanced_build_leaf_tokens_witness :
    ∃ root, parse_ast c4tokens = Except.ok root ∧
      Node.leafTokens root = sigTokens c4tokens := by
  apply balanced_build_leaf_tokens
  show Balanced ((mkTok NAME "foo" 1 0 1 3) :: [mkTok OP "(" 1 3 1 4, mkTok NAME "a" 1 4 1 5,
    mkTok OP "," 1 5 1 6, mkTok NAME "b" 1 7 1 8, mkTok OP ")" 1 8 1 9])
  refine Balanced.flat _ _ (by decide) (by decide) ?_
  exact Balanced.group (mkTok OP "(" 1 3 1 4) (mkTok OP ")" 1 8 1 9)
    [mkTok NAME "a" 1 4 1 5, mkTok OP "," 1 5 1 6, mkTok NAME "b" 1 7 1 8] []
    (by decide) (by decide) (by decide)
    (Balanced.flat _ _ (by decide) (by decide)
      (Balanced.flat _ _ (by decide) (by decide)
        (Balanced.flat _ _ (by decide) (by decide) Balanced.nil)))
    Balanced.nil

/-!
## Claim C1: the per-group rule matches the claim's description
-/

theorem items_map_snd (s : TokenInfo) (cs : List Node) (e : TokenInfo) :
    ParensGroupNode.iter_comma_separated s cs e = (claimItems s cs e).map Prod.snd := by
  unfold ParensGroupNode.iter_comma_separated claimItems
  rw [segments_eq]
  simp [List.map_map, Function.comp]

theorem statesOfPairs_claim (ps : List ((Bool × Node) × (Bool × Node))) :
    statesOfPairs (ps.map (Prod.map Prod.snd Prod.snd)) =
      (claimPairStates ps).map (List.map (fun q => ((q.1 : Bool), q.2.2))) := by
  induction ps with
  | nil => rfl
  | cons pc rest ih =>
      have hL : statesOfPairs ((pc :: rest).map (Prod.map Prod.snd Prod.snd))
          = (pc.1.2).end_line.bind (fun el => (pc.2.2).start_line.bind (fun sl =>
              (statesOfPairs (rest.map (Prod.map Prod.snd Prod.snd))).bind (fun tl =>
                some ((el == sl, pc.2.2) :: tl)))) := rfl
      have hR : claimPairStates (pc :: rest)
          = (pc.1.2).end_line.bind (fun el => (pc.2.2).start_line.bind (fun sl =>
              (claimPairStates rest).bind (fun tl =>
                some ((el == sl, pc.2) :: tl)))) := rfl
      rw [hL, hR]
      cases hel : (pc.1.2).end_line with
      | none => rfl
      | some el =>
          rw [Option.some_bind, Option.some_bind]
          cases hsl : (pc.2.2).start_line with
          | none => rfl
          | some sl =>
              rw [Option.some_bind, Option.some_bind]
              rw [ih]
              cases hcp : claimPairStates rest with
              | none => rfl
              | some tl => rfl

theorem claimPairStates_snd (ps : List ((Bool × Node) × (Bool × Node))) :
    ∀ qs, claimPairStates ps = some qs →
      qs.map (fun q => q.2) = ps.map (fun pc => pc.2) := by
  induction ps with
  | nil =>
      intro qs h
      have h2 : [] = qs := Option.some.inj h
      subst h2
      rfl
  | cons pc rest ih =>
      intro qs h
      have h2 : ((pc.1.2).end_line.bind (fun el => (pc.2.2).start_line.bind (fun sl =>
          (claimPairStates rest).bind (fun tl =>
            some ((el == sl, pc.2) :: tl))))) = some qs := h
      cases hel : (pc.1.2).end_line with
      | none => rw [hel] at h2; cases h2
      | some el =>
          rw [hel, Option.some_bind] at h2
          cases hsl : (pc.2.2).start_line with
          | none => rw [hsl] at h2; cases h2
          | some sl =>
              rw [hsl, Option.some_bind] at h2
              cases htl : claimPairStates rest with
              | none => rw [htl] at h2; cases h2
              | some tl =>
                  rw [htl, Option.some_bind] at h2
                  have h3 : (el == sl, pc.2) :: tl = qs := Option.some.inj h2
                  subst h3
                  simp [ih tl htl]

theorem errorsOf_eq_claimErrors (e : TokenInfo)
    (hk : NodeKind.from_token e = NodeKind.close_paren) :
    ∀ hug : List (Bool × Node),
      (∀ i ∈ hug, (i.1 = false ∧ ∃ seg, i.2 = Node.node seg)
        ∨ i = (true, Node.singleTokenNode e)) →
      errorsOf (hug.map Prod.snd) = claimErrors e hug := by
  intro hug
  induction hug with
  | nil => intro h; rfl
  | cons i is ih =>
      intro h
      have hi := h i (List.mem_cons_self _ _)
      have hrest := ih (fun z hz => h z (List.mem_cons_of_mem i hz))
      have herr : node_error i.2 = claimError e i := by
        obtain ⟨b, x⟩ := i
        rcases hi with ⟨h1, seg, h2⟩ | h1
        · simp only at h1 h2
          subst h1
          subst h2
          cases hp : Node.start_pos (Node.node seg) with
          | none => simp [node_error, claimError, hp]
          | some p => simp [node_error, claimError, hp]
        · have hb : b = true := congrArg Prod.fst h1
          have hx : x = Node.singleTokenNode e := congrArg Prod.snd h1
          subst hb
          subst hx
          simp [node_error, claimError, hk]
      show (node_error i.2).bind (fun er => (errorsOf (is.map Prod.snd)).bind
          (fun tl => some (er :: tl)))
        = (claimError e i).bind (fun er => (claimErrors e is).bind
          (fun tl => some (er :: tl)))
      rw [herr, hrest]

/-- C1: for a Group whose opener and closer lie on different lines and which
has children, the evaluator's behaviour is exactly the claim's per-group
rule: with items `[opening leaf, segments…, closing leaf]` and `hugging` the
items starting on the line where their predecessor ends, it emits one
diagnostic per hugging item (closing-bracket message for the closing leaf,
argument message otherwise, each at the item's start position) exactly when
`hugging` is non-empty and a strict subset of the evaluated items — and then
recurses into the children with those diagnostics appended. -/
theorem evaluator_group_rule (v : ValidatingVisitor) (s : TokenInfo) (cs : List Node)
    (e : TokenInfo) (hline : s.start.1 ≠ e.stop.1) (hne : cs ≠ [])
    (hkind : NodeKind.from_token e = NodeKind.close_paren) :
    visit v (Node.parensGroupNode s cs e) =
      (claimDiagnostics s cs e).bind (fun own =>
        visitChildren { v with errors := v.errors ++ own } cs) := by
  have h1 : (s.start.1 == e.stop.1) = false := beq_eq_false_iff_ne.mpr hline
  have h2 : cs.isEmpty = false := by
    cases cs with
    | nil => exact absurd rfl hne
    | cons a l => rfl
  have hg : (s.start.1 == e.stop.1 || cs.isEmpty) = false := by rw [h1, h2]; rfl
  simp only [visit, hg, Bool.false_eq_true, if_false]
  suffices hmain : visitParensGroupNode_errors s cs e = claimDiagnostics s cs e by
    rw [hmain]
    rfl
  have hL : visitParensGroupNode_errors s cs e
      = (zip_with_prev (ParensGroupNode.iter_comma_separated s cs e)).bind (fun pairs =>
          (statesOfPairs pairs).bind (fun states =>
            if !((states.filter (fun p => p.1)).map (fun p => p.2)).isEmpty
                && ((states.filter (fun p => p.1)).map (fun p => p.2)).length < states.length
            then errorsOf ((states.filter (fun p => p.1)).map (fun p => p.2))
            else some [])) := rfl
  have hR : claimDiagnostics s cs e
      = (claimPairStates ((claimItems s cs e).zip (claimItems s cs e).tail)).bind
          (fun states =>
            if 0 < ((states.filter (fun p => p.1)).map (fun p => p.2)).length
                ∧ ((states.filter (fun p => p.1)).map (fun p => p.2)).length < states.length
            then claimErrors e ((states.filter (fun p => p.1)).map (fun p => p.2))
            else some []) := rfl
  have hzip : zip_with_prev (ParensGroupNode.iter_comma_separated s cs e)
      = some (((claimItems s cs e).map Prod.snd).zip
          (((claimItems s cs e).map Prod.snd).tail)) := by
    rw [items_map_snd s cs e]
    rfl
  have hpairs : ((claimItems s cs e).map Prod.snd).zip
        (((claimItems s cs e).map Prod.snd).tail)
      = ((claimItems s cs e).zip (claimItems s cs e).tail).map
          (Prod.map Prod.snd Prod.snd) := by
    rw [← List.map_tail, List.zip_map]
  rw [hL, hR, hzip, Option.some_bind, hpairs, statesOfPairs_claim]
  cases hcp : claimPairStates ((claimItems s cs e).zip (claimItems s cs e).tail) with
  | none => rfl
  | some qs =>
      rw [Option.map_some']
      rw [Option.some_bind, Option.some_bind]
      have htail : ((claimItems s cs e).zip (claimItems s cs e).tail).map
            (fun pc => pc.2) = (claimItems s cs e).tail := by
        have := List.map_snd_zip (claimItems s cs e) (claimItems s cs e).tail
          (by cases hI : claimItems s cs e <;> simp)
        exact this
      have hfil : (qs.map (fun q => ((q.1 : Bool), q.2.2))).filter (fun p => p.1)
          = (qs.filter (fun p => p.1)).map (fun q => ((q.1 : Bool), q.2.2)) := by
        rw [List.filter_map]
        rfl
      have hsls : ((qs.map (fun q => ((q.1 : Bool), q.2.2))).filter
            (fun p => p.1)).map (fun p => p.2)
          = ((qs.filter (fun p => p.1)).map (fun p => p.2)).map Prod.snd := by
        rw [hfil, List.map_map, List.map_map]
        rfl
      rw [hsls]
      have hlen1 : (((qs.filter (fun p => p.1)).map (fun p => p.2)).map Prod.snd).length
          = ((qs.filter (fun p => p.1)).map (fun p => p.2)).length := List.length_map _ _
      have hlen2 : (qs.map (fun q => ((q.1 : Bool), q.2.2))).length = qs.length :=
        List.length_map _ _
      have hmem : ∀ i ∈ (qs.filter (fun p => p.1)).map (fun p => p.2),
          (i.1 = false ∧ ∃ seg, i.2 = Node.node seg)
            ∨ i = (true, Node.singleTokenNode e) := by
        intro i hi
        obtain ⟨q, hq, hqi⟩ := List.mem_map.mp hi
        have hq2 : q ∈ qs := List.mem_of_mem_filter hq
        have hi2 : i ∈ qs.map (fun q => q.2) := by
          rw [← hqi]
          exact List.mem_map_of_mem _ hq2
        rw [claimPairStates_snd _ qs hcp, htail] at hi2
        have htl : (claimItems s cs e).tail
            = (claimSegments cs).map (fun seg => ((false : Bool), Node.node seg))
              ++ [((true : Bool), Node.singleTokenNode e)] := rfl
        rw [htl] at hi2
        rcases List.mem_append.mp hi2 with h3 | h3
        · obtain ⟨seg, hseg, hseg2⟩ := List.mem_map.mp h3
          left
          rw [← hseg2]
          exact ⟨rfl, seg, rfl⟩
        · right
          exact List.mem_singleton.mp h3
      by_cases hc : 0 < ((qs.filter (fun p => p.1)).map (fun p => p.2)).length
          ∧ ((qs.filter (fun p => p.1)).map (fun p => p.2)).length < qs.length
      · have hbe : (!(((qs.filter (fun p => p.1)).map (fun p => p.2)).map Prod.snd).isEmpty
            && (((qs.filter (fun p => p.1)).map (fun p => p.2)).map Prod.snd).length
              < (qs.map (fun q => ((q.1 : Bool), q.2.2))).length) = true := by
          rw [hlen1, hlen2]
          have hne2 : (((qs.filter (fun p => p.1)).map (fun p => p.2)).map Prod.snd).isEmpty
              = false := by
            cases hq : ((qs.filter (fun p => p.1)).map (fun p => p.2)) with
            | nil => rw [hq] at hc; cases hc.1
            | cons a l => rfl
          rw [hne2]
          simpa using hc.2
        rw [if_pos hbe, if_pos hc]
        exact errorsOf_eq_claimErrors e hkind _ hmem
      · have hbe : (!(((qs.filter (fun p => p.1)).map (fun p => p.2)).map Prod.snd).isEmpty
            && (((qs.filter (fun p => p.1)).map (fun p => p.2)).map Prod.snd).length
              < (qs.map (fun q => ((q.1 : Bool), q.2.2))).length) = false := by
          rw [hlen1, hlen2]
          by_contra hb
          rw [Bool.not_eq_false, Bool.and_eq_true] at hb
          apply hc
          constructor
          · cases hq : ((qs.filter (fun p => p.1)).map (fun p => p.2)) with
            | nil =>
                rw [hq] at hb
                cases hb.1
            | cons a l => simp
          · exact of_decide_eq_true hb.2
        rw [if_neg (by rw [hbe]; intro hfalse; cases hfalse), if_neg hc]

/-- Witness for C1 at the `foo("abc",` / wrapped-closer example. -/
theorem evaluator_group_rule_witness :
    visit ⟨[], false⟩ (Node.parensGroupNode c1open c1children c1close) =
      (claimDiagnostics c1open c1children c1close).bind (fun own =>
        visitChildren ⟨[] ++ own, false⟩ c1children) :=
  evaluator_group_rule ⟨[], false⟩ c1open c1children c1close
    (by decide) (by simp [c1children]) (by decide)

/-!
## Claim C6 (amended): recursion and per-level independence
-/

theorem obs_start_pos {a b : Node} (h : nodeObs a = nodeObs b) :
    Node.start_pos a = Node.start_pos b :=
  congrArg (fun o => o.2.1) h

theorem obs_end_line {a b : Node} (h : nodeObs a = nodeObs b) :
    Node.end_line a = Node.end_line b :=
  congrArg (fun o => o.2.2) h

theorem obs_comma {a b : Node} (h : nodeObs a = nodeObs b) :
    is_comma a = is_comma b :=
  congrArg Prod.fst h

theorem map_end_line_of_obs : ∀ (l1 l2 : List Node),
    l1.map nodeObs = l2.map nodeObs → l1.map Node.end_line = l2.map Node.end_line := by
  intro l1
  induction l1 with
  | nil =>
      intro l2 h
      cases l2 with
      | nil => rfl
      | cons b m => cases h
  | cons a m ih =>
      intro l2 h
      cases l2 with
      | nil => cases h
      | cons b m2 =>
          simp only [List.map_cons, List.cons.injEq] at h
          simp only [List.map_cons, List.cons.injEq]
          exact ⟨obs_end_line h.1, ih m2 h.2⟩

theorem endLineLast_congr : ∀ (l1 l2 : List Node),
    l1.map Node.end_line = l2.map Node.end_line →
    Node.endLineLast l1 = Node.endLineLast l2 := by
  intro l1
  induction l1 with
  | nil =>
      intro l2 h
      cases l2 with
      | nil => rfl
      | cons b m => cases h
  | cons a m ih =>
      intro l2 h
      cases l2 with
      | nil => cases h
      | cons b m2 =>
          simp only [List.map_cons, List.cons.injEq] at h
          cases m with
          | nil =>
              cases m2 with
              | nil => exact h.1
              | cons d mm2 => cases h.2
          | cons c mm =>
              cases m2 with
              | nil => cases h.2
              | cons d mm2 =>
                  show Node.endLineLast (c :: mm) = Node.endLineLast (d :: mm2)
                  exact ih (d :: mm2) h.2

theorem startPosFirst_congr : ∀ (l1 l2 : List Node),
    l1.map nodeObs = l2.map nodeObs →
    Node.startPosFirst l1 = Node.startPosFirst l2 := by
  intro l1 l2 h
  cases l1 with
  | nil =>
      cases l2 with
      | nil => rfl
      | cons b m => cases h
  | cons a m =>
      cases l2 with
      | nil => cases h
      | cons b m2 =>
          simp only [List.map_cons, List.cons.injEq] at h
          exact obs_start_pos h.1

theorem node_error_node (g : List Node) :
    node_error (Node.node g)
      = (Node.startPosFirst g).bind (fun pos => some ⟨pos.1, pos.2, arg_message⟩) := rfl

theorem itemObs_node_congr (g1 g2 : List Node) (h : g1.map nodeObs = g2.map nodeObs) :
    itemObs (Node.node g1) = itemObs (Node.node g2) := by
  have hsp : Node.startPosFirst g1 = Node.startPosFirst g2 := startPosFirst_congr g1 g2 h
  have hel : Node.endLineLast g1 = Node.endLineLast g2 :=
    endLineLast_congr g1 g2 (map_end_line_of_obs g1 g2 h)
  show (Node.startPosFirst g1, Node.endLineLast g1, node_error (Node.node g1))
      = (Node.startPosFirst g2, Node.endLineLast g2, node_error (Node.node g2))
  rw [hsp, hel, node_error_node, node_error_node, hsp]

theorem groupby_obs : ∀ (cs1 cs2 : List Node), cs1.map nodeObs = cs2.map nodeObs →
    (groupby_is_comma cs1).map (fun kg => ((kg.1 : Bool), kg.2.map nodeObs))
      = (groupby_is_comma cs2).map (fun kg => ((kg.1 : Bool), kg.2.map nodeObs)) := by
  intro cs1
  induction cs1 with
  | nil =>
      intro cs2 h
      cases cs2 with
      | nil => rfl
      | cons b m => cases h
  | cons x xs ih =>
      intro cs2 h
      cases cs2 with
      | nil => cases h
      | cons u us =>
          simp only [List.map_cons, List.cons.injEq] at h
          obtain ⟨hx, hxs⟩ := h
          have hk_x : is_comma x = is_comma u := obs_comma hx
          cases xs with
          | nil =>
              cases us with
              | cons v vs => cases hxs
              | nil =>
                  show [((is_comma x : Bool), [x].map nodeObs)]
                      = [((is_comma u : Bool), [u].map nodeObs)]
                  rw [hk_x]
                  simp [hx]
          | cons y ys =>
              cases us with
              | nil => cases hxs
              | cons v vs =>
                  have hy : nodeObs y = nodeObs v := by
                    simp only [List.map_cons, List.cons.injEq] at hxs
                    exact hxs.1
                  have hk_y : is_comma y = is_comma v := obs_comma hy
                  obtain ⟨run1, gs1, hgb1⟩ := gb_head y ys
                  obtain ⟨run2, gs2, hgb2⟩ := gb_head v vs
                  have ihtail := ih (v :: vs) hxs
                  rw [hgb1, hgb2] at ihtail
                  simp only [List.map_cons, List.cons.injEq, Prod.mk.injEq] at ihtail
                  obtain ⟨⟨hkey, hrun⟩, hgs⟩ := ihtail
                  by_cases hxy : (is_comma x == is_comma y) = true
                  · have hgbx1 : groupby_is_comma (x :: y :: ys)
                        = (is_comma y, x :: y :: run1) :: gs1 := by
                      simp only [groupby_is_comma]
                      rw [hgb1, if_pos hxy]
                    have huv : (is_comma u == is_comma v) = true := by
                      rw [← hk_x, ← hk_y]
                      exact hxy
                    have hgbx2 : groupby_is_comma (u :: v :: vs)
                        = (is_comma v, u :: v :: run2) :: gs2 := by
                      simp only [groupby_is_comma]
                      rw [hgb2, if_pos huv]
                    rw [hgbx1, hgbx2]
                    simp only [List.map_cons, List.cons.injEq, Prod.mk.injEq]
                    exact ⟨⟨hkey, hx, hrun⟩, hgs⟩
                  · have hxy2 : (is_comma x == is_comma y) = false := by
                      rw [Bool.not_eq_true] at hxy
                      exact hxy
                    have hgbx1 : groupby_is_comma (x :: y :: ys)
                        = (is_comma x, [x]) :: groupby_is_comma (y :: ys) := by
                      simp only [groupby_is_comma]
                      rw [if_neg (by rw [hxy2]; intro hfalse; cases hfalse)]
                    have huv2 : (is_comma u == is_comma v) = false := by
                      rw [← hk_x, ← hk_y]
                      exact hxy2
                    have hgbx2 : groupby_is_comma (u :: v :: vs)
                        = (is_comma u, [u]) :: groupby_is_comma (v :: vs) := by
                      simp only [groupby_is_comma]
                      rw [if_neg (by rw [huv2]; intro hfalse; cases hfalse)]
                    rw [hgbx1, hgbx2]
                    simp only [List.map_cons, List.cons.injEq, Prod.mk.injEq]
                    refine ⟨⟨hk_x, by simp [hx]⟩, ih (v :: vs) hxs⟩

theorem filterMap_obs : ∀ (L1 L2 : List (Bool × List Node)),
    L1.map (fun kg => ((kg.1 : Bool), kg.2.map nodeObs))
      = L2.map (fun kg => ((kg.1 : Bool), kg.2.map nodeObs)) →
    (L1.filterMap (fun kg => if kg.1 then none else some (Node.node kg.2))).map itemObs
      = (L2.filterMap (fun kg => if kg.1 then none else some (Node.node kg.2))).map itemObs := by
  intro L1
  induction L1 with
  | nil =>
      intro L2 h
      cases L2 with
      | nil => rfl
      | cons b m => cases h
  | cons kg1 m ih =>
      intro L2 h
      cases L2 with
      | nil => cases h
      | cons kg2 m2 =>
          simp only [List.map_cons, List.cons.injEq, Prod.mk.injEq] at h
          obtain ⟨⟨hkey, hchunk⟩, htl⟩ := h
          rw [List.filterMap_cons, List.filterMap_cons]
          by_cases hk : kg1.1 = true
          · rw [if_pos hk, if_pos (by rw [← hkey]; exact hk)]
            exact ih m2 htl
          · rw [Bool.not_eq_true] at hk
            rw [if_neg (by rw [hk]; intro hfalse; cases hfalse),
              if_neg (by rw [← hkey, hk]; intro hfalse; cases hfalse)]
            simp only [List.map_cons, List.cons.injEq]
            exact ⟨itemObs_node_congr kg1.2 kg2.2 hchunk, ih m2 htl⟩

theorem items_obs (s : TokenInfo) (cs1 cs2 : List Node) (e : TokenInfo)
    (h : cs1.map nodeObs = cs2.map nodeObs) :
    (ParensGroupNode.iter_comma_separated s cs1 e).map itemObs
      = (ParensGroupNode.iter_comma_separated s cs2 e).map itemObs := by
  unfold ParensGroupNode.iter_comma_separated
  simp only [List.map_cons, List.map_append, List.cons.injEq]
  rw [filterMap_obs _ _ (groupby_obs cs1 cs2 h)]

theorem errorsOf_congr : ∀ (xs1 xs2 : List Node),
    xs1.map node_error = xs2.map node_error → errorsOf xs1 = errorsOf xs2 := by
  intro xs1
  induction xs1 with
  | nil =>
      intro xs2 h
      cases xs2 with
      | nil => rfl
      | cons b m => cases h
  | cons a m ih =>
      intro xs2 h
      cases xs2 with
      | nil => cases h
      | cons b m2 =>
          simp only [List.map_cons, List.cons.injEq] at h
          show (node_error a).bind (fun er => (errorsOf m).bind (fun tl => some (er :: tl)))
            = (node_error b).bind (fun er => (errorsOf m2).bind (fun tl => some (er :: tl)))
          rw [h.1, ih m2 h.2]

theorem states_obs : ∀ (l1 l2 : List Node), l1.map itemObs = l2.map itemObs →
    (statesOfPairs (l1.zip l1.tail)).map (List.map (fun p => ((p.1 : Bool), itemObs p.2)))
      = (statesOfPairs (l2.zip l2.tail)).map
          (List.map (fun p => ((p.1 : Bool), itemObs p.2))) := by
  intro l1
  induction l1 with
  | nil =>
      intro l2 h
      cases l2 with
      | nil => rfl
      | cons b m => cases h
  | cons a m ih =>
      intro l2 h
      cases l2 with
      | nil => cases h
      | cons b m2 =>
          simp only [List.map_cons, List.cons.injEq] at h
          obtain ⟨ha, hm⟩ := h
          cases m with
          | nil =>
              cases m2 with
              | nil => rfl
              | cons d mm2 => cases hm
          | cons c mm =>
              cases m2 with
              | nil => cases hm
              | cons d mm2 =>
                  have hc : itemObs c = itemObs d := by
                    simp only [List.map_cons, List.cons.injEq] at hm
                    exact hm.1
                  have hael : Node.end_line a = Node.end_line b :=
                    congrArg (fun o => o.2.1) ha
                  have hcsp : Node.start_pos c = Node.start_pos d :=
                    congrArg (fun o => o.1) hc
                  have hcsl : Node.start_line c = Node.start_line d := by
                    unfold Node.start_line
                    rw [hcsp]
                  have hrec := ih (d :: mm2) hm
                  simp only [List.tail_cons] at hrec
                  simp only [List.tail_cons]
                  have hL : statesOfPairs ((a :: c :: mm).zip (c :: mm))
                      = (Node.end_line a).bind (fun el => (Node.start_line c).bind (fun sl =>
                          (statesOfPairs ((c :: mm).zip mm)).bind (fun tl =>
                            some ((el == sl, c) :: tl)))) := rfl
                  have hR : statesOfPairs ((b :: d :: mm2).zip (d :: mm2))
                      = (Node.end_line b).bind (fun el => (Node.start_line d).bind (fun sl =>
                          (statesOfPairs ((d :: mm2).zip mm2)).bind (fun tl =>
                            some ((el == sl, d) :: tl)))) := rfl
                  rw [hL, hR, ← hael, ← hcsl]
                  cases hel : Node.end_line a with
                  | none => rfl
                  | some el =>
                      rw [Option.some_bind, Option.some_bind]
                      cases hsl : Node.start_line c with
                      | none => rfl
                      | some sl =>
                          rw [Option.some_bind, Option.some_bind]
                          cases h1 : statesOfPairs ((c :: mm).zip mm) with
                          | none =>
                              rw [h1] at hrec
                              cases h2 : statesOfPairs ((d :: mm2).zip mm2) with
                              | none => rfl
                              | some tl2 => rw [h2] at hrec; cases hrec
                          | some tl1 =>
                              rw [h1] at hrec
                              cases h2 : statesOfPairs ((d :: mm2).zip mm2) with
                              | none => rw [h2] at hrec; cases hrec
                              | some tl2 =>
                                  rw [h2] at hrec
                                  have htl : tl1.map (fun p => ((p.1 : Bool), itemObs p.2))
                                      = tl2.map (fun p => ((p.1 : Bool), itemObs p.2)) :=
                                    Option.some.inj hrec
                                  rw [Option.some_bind, Option.some_bind]
                                  show some (((el == sl, c) :: tl1).map
                                      (fun p => ((p.1 : Bool), itemObs p.2)))
                                    = some (((el == sl, d) :: tl2).map
                                      (fun p => ((p.1 : Bool), itemObs p.2)))
                                  simp only [List.map_cons, Option.some.injEq,
                                    List.cons.injEq, Prod.mk.injEq]
                                  exact ⟨⟨trivial, hc⟩, htl⟩

theorem vpge_obs (l1 l2 : List Node) (h : l1.map itemObs = l2.map itemObs) :
    vpgeItems l1 = vpgeItems l2 := by
  cases l1 with
  | nil =>
      cases l2 with
      | nil => rfl
      | cons b m2 => cases h
  | cons a m =>
      cases l2 with
      | nil => cases h
      | cons b m2 =>
          have hL : vpgeItems (a :: m)
              = (statesOfPairs ((a :: m).zip m)).bind (fun states =>
                  if !((states.filter (fun p => p.1)).map (fun p => p.2)).isEmpty
                      && ((states.filter (fun p => p.1)).map (fun p => p.2)).length
                        < states.length
                  then errorsOf ((states.filter (fun p => p.1)).map (fun p => p.2))
                  else some []) := rfl
          have hR : vpgeItems (b :: m2)
              = (statesOfPairs ((b :: m2).zip m2)).bind (fun states =>
                  if !((states.filter (fun p => p.1)).map (fun p => p.2)).isEmpty
                      && ((states.filter (fun p => p.1)).map (fun p => p.2)).length
                        < states.length
                  then errorsOf ((states.filter (fun p => p.1)).map (fun p => p.2))
                  else some []) := rfl
          rw [hL, hR]
          have hst := states_obs (a :: m) (b :: m2) h
          simp only [List.tail_cons] at hst
          cases h1 : statesOfPairs ((a :: m).zip m) with
          | none =>
              rw [h1] at hst
              cases h2 : statesOfPairs ((b :: m2).zip m2) with
              | none => rfl
              | some qs2 => rw [h2] at hst; cases hst
          | some qs1 =>
              rw [h1] at hst
              cases h2 : statesOfPairs ((b :: m2).zip m2) with
              | none => rw [h2] at hst; cases hst
              | some qs2 =>
                  rw [h2] at hst
                  have hmap : qs1.map (fun p => ((p.1 : Bool), itemObs p.2))
                      = qs2.map (fun p => ((p.1 : Bool), itemObs p.2)) :=
                    Option.some.inj hst
                  rw [Option.some_bind, Option.some_bind]
                  have e1 : (qs1.map (fun p => ((p.1 : Bool), itemObs p.2))).filter
                        (fun w => w.1)
                      = (qs1.filter (fun p => p.1)).map
                        (fun p => ((p.1 : Bool), itemObs p.2)) := by
                    rw [List.filter_map]
                    rfl
                  have e2 : (qs2.map (fun p => ((p.1 : Bool), itemObs p.2))).filter
                        (fun w => w.1)
                      = (qs2.filter (fun p => p.1)).map
                        (fun p => ((p.1 : Bool), itemObs p.2)) := by
                    rw [List.filter_map]
                    rfl
                  have hfil : (qs1.filter (fun p => p.1)).map
                        (fun p => ((p.1 : Bool), itemObs p.2))
                      = (qs2.filter (fun p => p.1)).map
                        (fun p => ((p.1 : Bool), itemObs p.2)) := by
                    rw [← e1, ← e2, hmap]
                  have hlen : qs1.length = qs2.length := by
                    have := congrArg List.length hmap
                    simpa using this
                  have hlenf : ((qs1.filter (fun p => p.1)).map (fun p => p.2)).length
                      = ((qs2.filter (fun p => p.1)).map (fun p => p.2)).length := by
                    have := congrArg List.length hfil
                    simpa using this
                  have hie : ((qs1.filter (fun p => p.1)).map (fun p => p.2)).isEmpty
                      = ((qs2.filter (fun p => p.1)).map (fun p => p.2)).isEmpty := by
                    cases hA : (qs1.filter (fun p => p.1)).map (fun p => p.2) with
                    | nil =>
                        cases hB : (qs2.filter (fun p => p.1)).map (fun p => p.2) with
                        | nil => rfl
                        | cons z zs =>
                            rw [hA, hB] at hlenf
                            cases hlenf
                    | cons z zs =>
                        cases hB : (qs2.filter (fun p => p.1)).map (fun p => p.2) with
                        | nil =>
                            rw [hA, hB] at hlenf
                            cases hlenf
                        | cons w ws => rfl
                  have hsls : ((qs1.filter (fun p => p.1)).map (fun p => p.2)).map node_error
                      = ((qs2.filter (fun p => p.1)).map (fun p => p.2)).map node_error := by
                    have h3 := congrArg (List.map (fun w => w.2.2.2)) hfil
                    rw [List.map_map, List.map_map] at h3
                    rw [List.map_map, List.map_map]
                    exact h3
                  have hcond : (!((qs1.filter (fun p => p.1)).map (fun p => p.2)).isEmpty
                      && ((qs1.filter (fun p => p.1)).map (fun p => p.2)).length < qs1.length)
                      = (!((qs2.filter (fun p => p.1)).map (fun p => p.2)).isEmpty
                      && ((qs2.filter (fun p => p.1)).map (fun p => p.2)).length
                        < qs2.length) := by
                    rw [hie, hlenf, hlen]
                  rw [hcond]
                  by_cases hcnd : (!((qs2.filter (fun p => p.1)).map (fun p => p.2)).isEmpty
                      && ((qs2.filter (fun p => p.1)).map (fun p => p.2)).length
                        < qs2.length) = true
                  · rw [if_pos hcnd, if_pos hcnd]
                    exact errorsOf_congr _ _ hsls
                  · rw [if_neg hcnd, if_neg hcnd]

/-- C6 (amended): for a Group the evaluator actually evaluates (multi-line,
with children) it always recurses into every child, independently of whether
the Group was flagged, merely appending its own diagnostics first; and the
hugging computation is independent per nesting level — the Group's own
diagnostics depend only on each child's top-level observables (comma-ness,
start position, end line), so an inner Group's internal wrapping never
changes the outer Group's diagnostics.  (A Group skipped as single-line or
childless, however, is not recursed into.) -/
theorem recursion_and_independence (v : ValidatingVisitor) (s : TokenInfo)
    (cs : List Node) (e : TokenInfo)
    (h : ¬(s.start.1 = e.stop.1 ∨ cs = [])) :
    (visit v (Node.parensGroupNode s cs e)
      = (visitParensGroupNode_errors s cs e).bind (fun new =>
          visitChildren { v with errors := v.errors ++ new } cs)) ∧
    (∀ cs2, cs.map nodeObs = cs2.map nodeObs →
      visitParensGroupNode_errors s cs e = visitParensGroupNode_errors s cs2 e) := by
  constructor
  · have h1 : (s.start.1 == e.stop.1) = false :=
      beq_eq_false_iff_ne.mpr (fun he => h (Or.inl he))
    have h2 : cs.isEmpty = false := by
      cases cs with
      | nil => exact absurd (Or.inr rfl) h
      | cons a l => rfl
    have hg : (s.start.1 == e.stop.1 || cs.isEmpty) = false := by rw [h1, h2]; rfl
    simp only [visit, hg, Bool.false_eq_true, if_false]
    rfl
  · intro cs2 hobs
    unfold visitParensGroupNode_errors
    exact vpge_obs _ _ (items_obs s cs cs2 e hobs)

/-- Witness for the amended C6: the non-skipped example group, and the swap
of its Run child for a whole bracket group with the same observables
(`c6alt`) leaving the diagnostics unchanged. -/
theorem recursion_and_independence_witness :
    (visit ⟨[], false⟩ (Node.parensGroupNode c1open c1children c1close)
      = (visitParensGroupNode_errors c1open c1children c1close).bind (fun new =>
          visitChildren ⟨[] ++ new, false⟩ c1children)) ∧
    visitParensGroupNode_errors c1open c1children c1close
      = visitParensGroupNode_errors c1open c6alt c1close := by
  have h := recursion_and_independence ⟨[], false⟩ c1open c1children c1close
    (by rintro (hx | hx)
        · exact absurd hx (by decide)
        · simp [c1children] at hx)
  exact ⟨h.1, h.2 c6alt rfl⟩

end ParensChecker
